import Mathlib

set_option maxHeartbeats 1600000
set_option maxRecDepth 4096

/-!
# Verification of lib/qpselect.c (Quagga pselect support)

Shallow embedding of the qpselect subsystem: the `qps_selection`
structure, its file-membership management (sparse ordered list vs
direct-indexed dense vector), mode enable/disable bookkeeping, the
pselect wait protocol and the dispatch protocol.

Modelling conventions:

* A descriptor set (`fd_super_set`) is modelled as a `Finset ℕ` of the
  descriptors whose bits are set.  The word/byte overlay of the C code
  is recovered through the canonical layout that the start-up probe
  (`qps_make_super_set_map`) validates: descriptor `fd` lives in the
  32-bit word `fd / 32` and the byte `fd / 8`, and `fd_first_map`
  applied to a non-zero byte yields the least set descriptor of that
  byte modulo 8.  A word (resp. byte) of the overlay is zero exactly
  when no descriptor of its 32-aligned (resp. 8-aligned) block is in
  the set.
* C loops bounded by `fd_last` or by the mode count are written with
  an explicit fuel argument that provably exceeds the number of
  iterations the C loop can make, so that all definitions compute.
* Fatal errors (`zabort`, `passert`, and the `dassert` checks, which
  the surrounding code documents as FATAL) are modelled by `Option`:
  `none` is process abort.  The debug-only `dassert`s inside
  `qps_next_fd_pending` are consistency checks on the bit maps and are
  not modelled (they hold whenever the function is entered with all
  set bits inside the scanned range, which is the case at every call
  site).
* The dynamic vector (`lib/vector.c`, not part of this tree) is
  modelled from the spec where marked `Modelled from the spec:`.
* Action functions are opaque: a callback slot is `Option ℕ`
  (present/absent); dispatch is modelled for callbacks that perform no
  mutations, which is what the dispatch-ordering claims stipulate.
* The kernel side of `pselect` is an oracle `PollOutcome`: either a
  per-mode readiness assignment, EINTR, or another errno.  `pselect`
  returning `n > 0` means `n` bits remain set among the requested
  result sets; returning 0 means none do (timeout).
-/

/-! ## Constants (from qpselect.h, reconstructed from use in qpselect.c) -/

def FD_SETSIZE : ℕ := 1024

/-- Modes: `qps_error_mnum = 0 < qps_read_mnum = 1 < qps_write_mnum = 2`
(dispatch priority order: error, read, write). -/
def qps_mnum_count : ℕ := 3

/-- `qps_mbit(mnum) = 1 << mnum`. -/
def qps_mbit (m : ℕ) : ℕ := 1 <<< m

def qps_all_mbits : ℕ := 7

/-- The mode range check of `qps_enable_mode` and `qps_set_action`:
`dassert((mnum >= 0) && (mnum <= qps_mnum_count))`.
Note the `<=`: this is taken from the source verbatim. -/
def qps_mode_range_check (mnum : ℤ) : Bool :=
  (0 ≤ mnum) && (mnum ≤ (qps_mnum_count : ℤ))

/-! ## fd_super_set scanning (qps_next_fd_pending)

The C function walks 32-bit words of the overlay starting at the word
holding `fd`, skipping zero words by jumping `fd` to the next word
boundary; inside a non-zero word it backs `fd` up to its byte start and
walks bytes; inside a non-zero byte `b` it returns
`fd + fd_first_map[b]` and clears that bit.  `-1` means nothing found
at or below `fd_last`. -/

/-- One word of the overlay is zero iff no member of the set shares
`fd`'s 32-aligned block; `while` loop of qps_next_fd_pending, with
fuel (each iteration advances `fd` to the next multiple of 32, and the
loop exits once `fd > fd_last`, so `fd_last / 32 + 2` steps always
suffice). -/
def qps_word_scan : ℕ → Finset ℕ → ℕ → ℕ → Option ℕ
  | 0, _, _, _ => none
  | fuel + 1, s, fd, fd_last =>
    if (s.filter (fun x => x / 32 = fd / 32)).Nonempty then some fd
    else
      let fd2 := (fd / 32) * 32 + 32
      if fd_last < fd2 then none
      else qps_word_scan fuel s fd2 fd_last

/-- Byte walk of qps_next_fd_pending: `fd` is a byte start; a byte of
the overlay is zero iff no member shares `fd`'s 8-aligned block; a
non-zero byte `b` yields `fd + fd_first_map[b]`, the least member of
that block. -/
def qps_byte_scan : ℕ → Finset ℕ → ℕ → ℕ → Option ℕ
  | 0, _, _, _ => none
  | fuel + 1, s, fd, fd_last =>
    let b := s.filter (fun x => x / 8 = fd / 8)
    if h : b.Nonempty then some ((fd / 8) * 8 + (b.min' h) % 8)
    else if fd_last < fd + 8 then none
    else qps_byte_scan fuel s (fd + 8) fd_last

/-- `qps_next_fd_pending(pending, fd, fd_last)`: scan for the next fd
in the given set starting at `fd`, not considering anything above
`fd_last` while skipping; clear the found bit.  Returns `-1` and the
unchanged set when nothing is found. -/
def qps_next_fd_pending (s : Finset ℕ) (fd fd_last : ℕ) : ℤ × Finset ℕ :=
  match qps_word_scan (fd_last / 32 + 2) s fd fd_last with
  | none => (-1, s)
  | some fd1 =>
    match qps_byte_scan (fd_last / 8 + 2) s ((fd1 / 8) * 8) fd_last with
    | none => (-1, s)
    | some f => ((f : ℤ), s.erase f)

/-! ## Data model -/

/-- `struct qps_file`.  The `selection` back-pointer is modelled as an
attachment flag; `file_info` is the opaque cookie; an action function
is opaque (`Option ℕ`: present/absent). -/
@[ext]
structure QpsFile where
  selection : Bool
  file_info : ℕ
  fd : ℕ
  enabled_bits : ℕ
  actions : Fin 3 → Option ℕ
deriving DecidableEq

/-- The files vector: a sparse ordered list (binary chop) or a dense
direct-indexed array (`fd_direct`); the representation flag is the
constructor. -/
inductive QpsFiles where
  | sparse (l : List QpsFile)
  | dense (l : List (Option QpsFile))
deriving DecidableEq

/-- `struct qps_selection`. -/
@[ext]
structure QpsSelection where
  files : QpsFiles
  fd_count : ℕ
  fd_last : ℕ
  enabled : Fin 3 → Finset ℕ
  enabled_count : Fin 3 → ℕ
  tried_fd_last : ℕ
  tried_count : Fin 3 → ℕ
  results : Fin 3 → Finset ℕ
  pend_count : ℕ
  pend_mnum : ℕ
  pend_fd : ℕ
  signum : ℕ
  sigmask : Finset ℕ
deriving DecidableEq

def qps_fd_direct (S : QpsSelection) : Bool :=
  match S.files with
  | .sparse _ => false
  | .dense _ => true

/-- All file records held by the vector. -/
def qps_files_list : QpsFiles → List QpsFile
  | .sparse l => l
  | .dense l => l.filterMap id

/-- The descriptors held by the vector. -/
def qps_files_fds (fs : QpsFiles) : List ℕ :=
  (qps_files_list fs).map (fun g => g.fd)

/-- Largest descriptor present, or 0 when empty. -/
def qps_files_max (fs : QpsFiles) : ℕ :=
  (qps_files_fds fs).foldr max 0

def qps_files_has (fs : QpsFiles) (fd : ℕ) : Bool :=
  match fs with
  | .sparse l => l.any (fun g => g.fd == fd)
  | .dense l => (l.getD fd none).isSome

/-! ## Vector operations (lib/vector.c is outside this tree).

Modelled from the spec: "Dynamic vector: ordered insert at index with
before/after hint, binary search returning (index, cmp), set-by-index,
get-by-index, pop-last, unset-by-index, last-index, move."  Insert in
the sparse representation places the record at its ordered position
(the position the binary chop reports); delete removes the found
record; set-by-index extends the vector with empty slots as needed;
unset-by-index clears the slot and the vector end shrinks past
trailing empty slots (detach "recomputes fd_last: the largest key
still present"). -/

def qps_sparse_insert : List QpsFile → QpsFile → List QpsFile
  | [], f => [f]
  | g :: t, f => if f.fd < g.fd then f :: g :: t else g :: qps_sparse_insert t f

def qps_sparse_delete : List QpsFile → ℕ → List QpsFile
  | [], _ => []
  | g :: t, fd => if g.fd = fd then t else g :: qps_sparse_delete t fd

def qps_dense_set (l : List (Option QpsFile)) (i : ℕ) (f : QpsFile) :
    List (Option QpsFile) :=
  if i < l.length then l.set i (some f)
  else l ++ List.replicate (i - l.length) none ++ [some f]

/-- Drop the maximal all-empty suffix (vector end shrinks past
trailing unset slots). -/
def qps_dense_trim : List (Option QpsFile) → List (Option QpsFile)
  | [] => []
  | x :: t =>
    if (qps_dense_trim t).isEmpty && x.isNone then [] else x :: qps_dense_trim t

/-- Sparse-to-dense conversion: pop each record off the old vector and
set it at index `record.fd` (`vector_pop_item` pops from the end, so
the last record is placed first). -/
def qps_to_dense (l : List QpsFile) : List (Option QpsFile) :=
  l.foldr (fun f d => qps_dense_set d f.fd f) []

/-- Update the record stored for descriptor `fd` (the C code mutates
the record through the `qps_file` pointer held in the vector). -/
def qps_files_update (fs : QpsFiles) (fd : ℕ) (f : QpsFile) : QpsFiles :=
  match fs with
  | .sparse l => .sparse (l.map (fun g => if g.fd = fd then f else g))
  | .dense l => .dense (if fd < l.length then l.set fd (some f) else l)

/-- `vector_ream_keep`: Modelled from the spec: ream "Pops one
arbitrary record from files" -- the record at the vector's end;
`qps_selection_ream` then removes it through `qps_file_remove`. -/
def qps_files_peek_last : QpsFiles → Option QpsFile
  | .sparse l => l.getLast?
  | .dense l => (l.getLast?).bind id

/-! ## Selection operations -/

/-- `qps_selection_init_new` on a zeroised structure. -/
def qps_selection_init_new : QpsSelection :=
  { files := .sparse [], fd_count := 0, fd_last := 0,
    enabled := fun _ => ∅, enabled_count := fun _ => 0,
    tried_fd_last := 0, tried_count := fun _ => 0,
    results := fun _ => ∅, pend_count := 0, pend_mnum := 0, pend_fd := 0,
    signum := 0, sigmask := ∅ }

/-- `qps_file_lookup_fd(qps, fd, NULL)` including its range `dassert`
and the final sanity `dassert` (found record matches `fd` and points
back at the selection). -/
def qps_file_lookup (S : QpsSelection) (fd : ℕ) : Option QpsFile :=
  if fd < FD_SETSIZE then
    match S.files with
    | .sparse l =>
      match l.find? (fun g => g.fd == fd) with
      | some g => if g.selection then some g else none
      | none => none
    | .dense l =>
      match l.getD fd none with
      | some g => if g.fd = fd ∧ g.selection then some g else none
      | none => none
  else none

/-- `qps_add_file` / the insert path of `qps_file_lookup_fd`: fatal if
the record is attached, if the descriptor is out of range, or if a
record with this descriptor already exists; converts sparse to dense
when `fd_count > 9` before inserting. -/
def qps_add_file (S : QpsSelection) (F : QpsFile) (fd file_info : ℕ) :
    Option QpsSelection :=
  if F.selection then none
  else if fd < FD_SETSIZE then
    let F1 : QpsFile :=
      { F with selection := true, file_info := file_info, fd := fd,
               enabled_bits := 0 }
    match S.files with
    | .sparse l =>
      if (l.find? (fun g => g.fd == fd)).isSome then none
      else
        let files1 :=
          if 9 < S.fd_count then QpsFiles.dense (qps_dense_set (qps_to_dense l) fd F1)
          else QpsFiles.sparse (qps_sparse_insert l F1)
        some { S with files := files1, fd_count := S.fd_count + 1,
                      fd_last := max S.fd_last fd }
    | .dense l =>
      if (l.getD fd none).isSome then none
      else
        some { S with files := QpsFiles.dense (qps_dense_set l fd F1),
                      fd_count := S.fd_count + 1, fd_last := max S.fd_last fd }
  else none

/-- One iteration of the `qps_disable_modes` loop body, for mode `m`
(whose bit is set in the remaining mask): clear the enabled bit and
count, and if a dispatch batch is live and this mode was tried and the
descriptor's result bit is still set, retract that pending event. -/
def qps_disable_step (S : QpsSelection) (fd : ℕ) (m : Fin 3) :
    Option QpsSelection :=
  if S.enabled_count m = 0 then none
  else if fd ∈ S.enabled m then
    let S1 :=
      { S with enabled := fun i => if i = m then (S.enabled m).erase fd else S.enabled i,
               enabled_count := fun i => if i = m then S.enabled_count m - 1
                                         else S.enabled_count i }
    if S.pend_count ≠ 0 ∧ S.tried_count m ≠ 0 ∧ fd ∈ S.results m then
      some { S1 with
               results := fun i => if i = m then (S.results m).erase fd else S.results i,
               pend_count := S.pend_count - 1 }
    else some S1
  else none

/-- The `while (mbits != 0)` loop of `qps_disable_modes`:
`qps_first_mnum` always picks the lowest remaining bit, so the modes
are processed in ascending order. -/
def qps_disable_loop (S : QpsSelection) (fd mb : ℕ) : Option QpsSelection :=
  (if mb &&& 1 ≠ 0 then qps_disable_step S fd 0 else some S).bind fun S1 =>
    (if mb &&& 2 ≠ 0 then qps_disable_step S1 fd 1 else some S1).bind fun S2 =>
      if mb &&& 4 ≠ 0 then qps_disable_step S2 fd 2 else some S2

/-- `qps_disable_modes(qf, mbits)` for an attached file, identified by
its descriptor. -/
def qps_disable_modes (S : QpsSelection) (fd mbits : ℕ) : Option QpsSelection :=
  if qps_all_mbits < mbits then none
  else
    match qps_file_lookup S fd with
    | none => none
    | some qf =>
      let mb := mbits &&& qf.enabled_bits
      let qf1 := { qf with enabled_bits := qf.enabled_bits ^^^ mb }
      (qps_disable_loop S fd mb).map
        (fun S1 => { S1 with files := qps_files_update S1.files fd qf1 })

/-- `qps_file_remove` (the body of `qps_remove_file` for an attached
file): remove from the vector, recompute `fd_last` from what remains,
decrement `fd_count`, then disable all modes (which also scrubs live
result bits), and clear the record's selection pointer. -/
def qps_file_remove (S : QpsSelection) (fd : ℕ) : Option QpsSelection :=
  if fd ≤ S.fd_last then
    match S.files with
    | .sparse l =>
      match l.find? (fun g => g.fd == fd) with
      | none => none
      | some F =>
        if F.selection then
          let l1 := qps_sparse_delete l fd
          let fdl : Option ℕ := (l1.getLast?).map (fun g => g.fd)
          if S.fd_count = 0 then none
          else if (S.fd_count - 1 ≠ 0 ∧ fdl.isSome) ∨ (S.fd_count - 1 = 0 ∧ fdl = none) then
            qps_disable_loop
              { S with files := QpsFiles.sparse l1, fd_count := S.fd_count - 1,
                       fd_last := fdl.getD 0 }
              fd (qps_all_mbits &&& F.enabled_bits)
          else none
        else none
    | .dense l =>
      match l.getD fd none with
      | none => none
      | some F =>
        if F.fd = fd ∧ F.selection then
          let l1 := qps_dense_trim (l.set fd none)
          let fdl : Option ℕ := if l1.length = 0 then none else some (l1.length - 1)
          if S.fd_count = 0 then none
          else if (S.fd_count - 1 ≠ 0 ∧ fdl.isSome) ∨ (S.fd_count - 1 = 0 ∧ fdl = none) then
            qps_disable_loop
              { S with files := QpsFiles.dense l1, fd_count := S.fd_count - 1,
                       fd_last := fdl.getD 0 }
              fd (qps_all_mbits &&& F.enabled_bits)
          else none
        else none
  else none

/-- `qps_selection_ream` in its keep variant: pop a record and remove
it; when the vector is empty, check `fd_count == 0` and reinitialise. -/
def qps_selection_ream_keep (S : QpsSelection) :
    Option (QpsSelection × Option QpsFile) :=
  match qps_files_peek_last S.files with
  | some F => (qps_file_remove S F.fd).map (fun S1 => (S1, some F))
  | none => if S.fd_count = 0 then some (qps_selection_init_new, none) else none

/-- `qps_set_signal`: store `signum`; when non-zero, assert membership
and store the mask with `signum` deleted; when zero, the mask argument
is not used. -/
def qps_set_signal (S : QpsSelection) (signum : ℕ) (sigmask : Finset ℕ) :
    Option QpsSelection :=
  let S1 := { S with signum := signum }
  if signum ≠ 0 then
    if signum ∈ sigmask then some { S1 with sigmask := sigmask.erase signum }
    else none
  else some S1

/-- The mask argument `qps_pselect` passes to the poll primitive:
`(qps->signum != 0) ? &qps->sigmask : NULL`. -/
def qps_pselect_mask_arg (S : QpsSelection) : Option (Finset ℕ) :=
  if S.signum ≠ 0 then some S.sigmask else none

/-- `qps_enable_mode(qf, mnum, action)` for an attached file.  The
range `dassert` reads `mnum <= qps_mnum_count`, so `mnum = 3` passes
the check; the code then indexes `actions[3]` / `enabled[3]`, which is
out of bounds (undefined behaviour in the C); that access is the final
`none` branch here, not a clean abort. -/
def qps_enable_mode (S : QpsSelection) (fd mnum : ℕ) (action : Option ℕ) :
    Option QpsSelection :=
  match qps_file_lookup S fd with
  | none => none
  | some qf =>
    if qps_mode_range_check (mnum : ℤ) then
      if h : mnum < 3 then
        let m : Fin 3 := ⟨mnum, h⟩
        let qf1 :=
          match action with
          | some a => { qf with actions := fun i => if i = m then some a else qf.actions i }
          | none => qf
        if action.isNone ∧ (qf.actions m).isNone then none
        else if qf.enabled_bits &&& qps_mbit mnum ≠ 0 then
          if fd ∈ S.enabled m then
            some { S with files := qps_files_update S.files fd qf1 }
          else none
        else if fd ∈ S.enabled m then none
        else
          let qf2 := { qf1 with enabled_bits := qf1.enabled_bits ||| qps_mbit mnum }
          some { S with
                   files := qps_files_update S.files fd qf2,
                   enabled := fun i => if i = m then insert fd (S.enabled m)
                                       else S.enabled i,
                   enabled_count := fun i => if i = m then S.enabled_count m + 1
                                             else S.enabled_count i }
      else none
    else none

/-- `qps_set_action(qf, mnum, action)` for an attached file; same
off-by-one range check as `qps_enable_mode`. -/
def qps_set_action (S : QpsSelection) (fd mnum : ℕ) (action : Option ℕ) :
    Option QpsSelection :=
  if qps_mode_range_check (mnum : ℤ) then
    if h : mnum < 3 then
      match qps_file_lookup S fd with
      | none => none
      | some qf =>
        let m : Fin 3 := ⟨mnum, h⟩
        if action.isNone ∧ qf.enabled_bits &&& qps_mbit mnum ≠ 0 then none
        else
          let qf2 := { qf with actions := fun i => if i = m then action else qf.actions i }
          some { S with files := qps_files_update S.files fd qf2 }
    else none
  else none

/-! ## The wait protocol (qps_pselect) -/

/-- The poll primitive's behaviour, as an oracle: a per-mode readiness
assignment (the kernel clears every requested bit whose descriptor is
not ready and returns the number of bits left), or EINTR, or another
errno. -/
inductive PollOutcome where
  | ev (r : Fin 3 → Finset ℕ)
  | intr
  | err

/-- `fd_byte_count[fd_last]` bytes cover exactly the descriptors below
this bound. -/
def qps_byte_copy_bound (fd_last : ℕ) : ℕ := (fd_last / 8) * 8 + 8

/-- `qps_pselect(qps, timeout)`.  Zero stale results, copy the first
`fd_byte_count[fd_last]` bytes of each non-empty enabled set into its
result set, snapshot `tried_count`/`tried_fd_last`, find the first
non-empty mode, reset the cursor, call the poll primitive, and return
the pending count / 0 / -1, aborting on any other errno. -/
def qps_pselect (S : QpsSelection) (poll : PollOutcome) :
    Option (QpsSelection × ℤ) :=
  let res0 : Fin 3 → Finset ℕ :=
    if S.pend_count ≠ 0 then (fun _ => ∅) else S.results
  let bound := qps_byte_copy_bound S.fd_last
  let copied : Fin 3 → Finset ℕ := fun m =>
    if S.enabled_count m ≠ 0 then
      (S.enabled m).filter (fun x => x < bound) ∪
        (res0 m).filter (fun x => ¬ x < bound)
    else res0 m
  let pmnum : ℕ :=
    if S.enabled_count 0 ≠ 0 then 0
    else if S.enabled_count 1 ≠ 0 then 1
    else if S.enabled_count 2 ≠ 0 then 2
    else 3
  let S1 := { S with results := copied, tried_count := S.enabled_count,
                     pend_mnum := pmnum, tried_fd_last := S.fd_last, pend_fd := 0 }
  match poll with
  | .err => none
  | .intr => some ({ S1 with results := fun _ => ∅, pend_count := 0 }, -1)
  | .ev r =>
    let final : Fin 3 → Finset ℕ := fun m =>
      if S.enabled_count m ≠ 0 then copied m ∩ r m else copied m
    let n : ℕ := Finset.univ.sum fun m =>
      if S.enabled_count m ≠ 0 then (copied m ∩ r m).card else 0
    if 0 < n then
      if pmnum < 3 then some ({ S1 with results := final, pend_count := n }, (n : ℤ))
      else none
    else some ({ S1 with results := fun _ => ∅, pend_count := 0 }, 0)

/-! ## The dispatch protocol (qps_dispatch_next) -/

/-- The inner `do ... while` of `qps_dispatch_next`: zero the tried
count of the exhausted mode, step to the next mode whose tried count
is non-zero, abort ("Unexpectedly ran out of pending stuff") past the
last mode.  Unrolled over the three modes. -/
def qps_mode_advance (mnum : ℕ) (tc : Fin 3 → ℕ) :
    Option (Fin 3 × (Fin 3 → ℕ)) :=
  if mnum = 0 then
    let tc1 : Fin 3 → ℕ := fun i => if i = 0 then 0 else tc i
    if tc1 1 ≠ 0 then some (1, tc1)
    else
      let tc2 : Fin 3 → ℕ := fun i => if i = 1 then 0 else tc1 i
      if tc2 2 ≠ 0 then some (2, tc2) else none
  else if mnum = 1 then
    let tc1 : Fin 3 → ℕ := fun i => if i = 1 then 0 else tc i
    if tc1 2 ≠ 0 then some (2, tc1) else none
  else none

/-- The outer `while (1)` of `qps_dispatch_next`: scan the current
mode's result set from the cursor; on failure advance the mode (and
record it in `pend_mnum`), restart the scan from descriptor 0.  The
mode index only moves up, so fuel 3 always suffices. -/
def qps_dispatch_find : ℕ → QpsSelection → ℕ → ℕ →
    Option (Fin 3 × ℕ × QpsSelection)
  | 0, _, _, _ => none
  | fuel + 1, S, mnum, fd =>
    if h : mnum < 3 then
      let r := qps_next_fd_pending (S.results ⟨mnum, h⟩) fd S.tried_fd_last
      if 0 ≤ r.1 then
        some (⟨mnum, h⟩, r.1.toNat,
          { S with results := fun i => if i = ⟨mnum, h⟩ then r.2 else S.results i })
      else
        match qps_mode_advance mnum S.tried_count with
        | none => none
        | some (m2, tc1) =>
          qps_dispatch_find fuel
            { S with tried_count := tc1, pend_mnum := (m2 : ℕ) } (m2 : ℕ) 0
    else none

/-- `qps_dispatch_next(qps)`: nothing to do when `pend_count == 0`;
otherwise find the next pending (mode, fd), consume it, look the file
up and invoke its action (modelled for callbacks that do not mutate
the selection).  Returns the updated selection, the remaining count,
and the dispatched event. -/
def qps_dispatch_next (S : QpsSelection) :
    Option (QpsSelection × ℕ × Option (Fin 3 × ℕ)) :=
  if S.pend_count = 0 then some (S, 0, none)
  else if h : S.pend_mnum < 3 then
    if S.tried_count ⟨S.pend_mnum, h⟩ = 0 then none
    else
      match qps_dispatch_find 3 S S.pend_mnum S.pend_fd with
      | none => none
      | some (m, f, S1) =>
        let S2 := { S1 with pend_count := S1.pend_count - 1, pend_fd := f }
        match qps_file_lookup S2 f with
        | none => none
        | some qf =>
          if qf.enabled_bits ≠ 0 ∧ (qf.actions m).isSome then
            some (S2, S2.pend_count, some (m, f))
          else none
  else none

/-- Repeated `qps_dispatch_next` until the batch is drained,
collecting the dispatched (mode, fd) events. -/
def qps_dispatch_events : ℕ → QpsSelection → Option (List (Fin 3 × ℕ) × QpsSelection)
  | 0, S => some ([], S)
  | fuel + 1, S =>
    if S.pend_count = 0 then some ([], S)
    else
      match qps_dispatch_next S with
      | some (S1, _, some p) =>
        (qps_dispatch_events fuel S1).map (fun q => (p :: q.1, q.2))
      | _ => none

/-- Strict lexicographic order on dispatched events: mode priority
error < read < write, descriptors ascending within a mode. -/
def qps_pair_lt (p q : Fin 3 × ℕ) : Prop :=
  p.1 < q.1 ∨ (p.1 = q.1 ∧ p.2 < q.2)

/-! ## Invariants -/

def qps_results_at (S : QpsSelection) (m : ℕ) : Finset ℕ :=
  if h : m < 3 then S.results ⟨m, h⟩ else ∅

def qps_tried_at (S : QpsSelection) (m : ℕ) : ℕ :=
  if h : m < 3 then S.tried_count ⟨m, h⟩ else 0

/-- The batch invariant as the claims state it: with nothing pending
all result sets are empty; with a pending batch, results are subsets
of the enabled sets, no result bit exceeds `tried_fd_last`, no bit
below `pend_fd` is set in the current mode's results, tried counts
below the current mode are zero, and the result bits tally with
`pend_count`. -/
def BatchInv (S : QpsSelection) : Prop :=
  (S.pend_count = 0 → ∀ m, S.results m = ∅) ∧
  (S.pend_count ≠ 0 →
    (∀ m, S.results m ⊆ S.enabled m) ∧
    (∀ m : Fin 3, ∀ x ∈ S.results m, x ≤ S.tried_fd_last) ∧
    (∀ x ∈ qps_results_at S S.pend_mnum, S.pend_fd ≤ x) ∧
    (∀ m : Fin 3, (m : ℕ) < S.pend_mnum → S.tried_count m = 0) ∧
    Finset.univ.sum (fun m => (S.results m).card) = S.pend_count)

/-- The full batch state audited by `qps_selection_validate`
(checks 10-17): `BatchInv` plus cursor validity and emptiness of
result sets whose tried count is zero.  This is what actually holds
between operations and is inductive. -/
def BatchValid (S : QpsSelection) : Prop :=
  (S.pend_count = 0 → ∀ m, S.results m = ∅) ∧
  (S.pend_count ≠ 0 →
    S.pend_mnum < 3 ∧
    S.pend_fd ≤ S.tried_fd_last ∧
    (∀ m : Fin 3, (m : ℕ) < S.pend_mnum → S.tried_count m = 0) ∧
    qps_tried_at S S.pend_mnum ≠ 0 ∧
    (∀ m : Fin 3, S.tried_count m = 0 → S.results m = ∅) ∧
    (∀ m, S.results m ⊆ S.enabled m) ∧
    (∀ m : Fin 3, ∀ x ∈ S.results m, x ≤ S.tried_fd_last) ∧
    (∀ x ∈ qps_results_at S S.pend_mnum, S.pend_fd ≤ x) ∧
    Finset.univ.sum (fun m => (S.results m).card) = S.pend_count)

/-- Selection-level hypothesis for the invariant-preservation claims:
the audited batch state plus "no extraneous fds are set in the enabled
vectors" (validate check 9; enabled descriptors do not exceed
`fd_last`). -/
def SelInv (S : QpsSelection) : Prop :=
  BatchValid S ∧ ∀ m : Fin 3, ∀ x ∈ S.enabled m, x ≤ S.fd_last

/-- A pending event can actually be dispatched: the file lookup
succeeds and the dasserted conditions of `qps_dispatch_next` hold. -/
def qps_dispatchable (S : QpsSelection) (m : Fin 3) (x : ℕ) : Bool :=
  match qps_file_lookup S x with
  | some f => (f.enabled_bits != 0) && (f.actions m).isSome
  | none => false

/-- State of a selection holding a batch produced by one wait whose
events all resolve to attached files with live actions -- what holds
after `qps_pselect` returns a positive count on a well-formed
selection. -/
def DispatchReady (S : QpsSelection) : Prop :=
  BatchValid S ∧ ∀ m : Fin 3, ∀ x ∈ S.results m, qps_dispatchable S m x = true

def qps_dense_idx_ok (l : List (Option QpsFile)) : Bool :=
  (List.range l.length).all fun i =>
    match l.getD i none with
    | some g => g.fd == i
    | none => true

def qps_dense_last_ok (l : List (Option QpsFile)) : Bool :=
  l.isEmpty || (l.getD (l.length - 1) none).isSome

def qps_files_ok (fs : QpsFiles) : Bool :=
  match fs with
  | .sparse l => decide (List.Pairwise (fun a b : QpsFile => a.fd < b.fd) l)
  | .dense l => qps_dense_idx_ok l && qps_dense_last_ok l

/-- The files-vector invariant audited by `qps_selection_validate`
(checks 1, 2, 5, 6): ordered unique records in sparse mode, index = fd
and no trailing empty slot in dense mode, `fd_count` tallies, and
`fd_last` is the largest descriptor present (or 0 when empty). -/
def FilesValid (S : QpsSelection) : Prop :=
  S.fd_last = qps_files_max S.files ∧
  S.fd_count = (qps_files_list S.files).length ∧
  qps_files_ok S.files = true

instance (S : QpsSelection) : Decidable (BatchInv S) := by
  unfold BatchInv; infer_instance

instance (S : QpsSelection) : Decidable (BatchValid S) := by
  unfold BatchValid; infer_instance

instance (S : QpsSelection) : Decidable (SelInv S) := by
  unfold SelInv; infer_instance

instance (S : QpsSelection) : Decidable (DispatchReady S) := by
  unfold DispatchReady; infer_instance

instance (S : QpsSelection) : Decidable (FilesValid S) := by
  unfold FilesValid; infer_instance

instance (p q : Fin 3 × ℕ) : Decidable (qps_pair_lt p q) := by
  unfold qps_pair_lt; infer_instance

/-! ## Concrete states used by witnesses and counterexamples -/

def qps_detached_file : QpsFile :=
  { selection := false, file_info := 0, fd := 0, enabled_bits := 0,
    actions := fun _ => none }

/-- An attached, read-enabled file record with descriptor `i`. -/
def qps_demo_read_file (i : ℕ) : QpsFile :=
  { selection := true, file_info := 0, fd := i, enabled_bits := 2,
    actions := fun m => if m = 1 then some 0 else none }

/-- A selection holding a two-event read batch (descriptors 3 and 7),
as left by a wait that returned 2. -/
def qps_demo_batch : QpsSelection :=
  { files := .sparse [qps_demo_read_file 3, qps_demo_read_file 7], fd_count := 2,
    fd_last := 7,
    enabled := fun m => if m = 1 then {3, 7} else ∅,
    enabled_count := fun m => if m = 1 then 2 else 0,
    tried_fd_last := 7, tried_count := fun m => if m = 1 then 2 else 0,
    results := fun m => if m = 1 then {3, 7} else ∅,
    pend_count := 2, pend_mnum := 1, pend_fd := 0, signum := 0, sigmask := ∅ }

def qps_demo_batch_run : List (Fin 3 × ℕ) × QpsSelection :=
  (qps_dispatch_events 2 qps_demo_batch).getD ([], qps_selection_init_new)

/-- An idle selection with one read-enabled descriptor (fd 5). -/
def qps_demo_idle : QpsSelection :=
  { files := .sparse [qps_demo_read_file 5], fd_count := 1, fd_last := 5,
    enabled := fun m => if m = 1 then {5} else ∅,
    enabled_count := fun m => if m = 1 then 1 else 0,
    tried_fd_last := 0, tried_count := fun _ => 0,
    results := fun _ => ∅, pend_count := 0, pend_mnum := 0, pend_fd := 0,
    signum := 0, sigmask := ∅ }

def qps_demo_wait_res : QpsSelection × ℤ :=
  (qps_pselect qps_demo_idle (PollOutcome.ev (fun _ => {5}))).getD
    (qps_selection_init_new, 0)

def qps_demo_attach (o : Option QpsSelection) (fd : ℕ) : Option QpsSelection :=
  o.bind fun S => qps_add_file S qps_detached_file fd 0

/-- Ten descriptors attached in scrambled order to a fresh selection. -/
def qps_demo_ten : Option QpsSelection :=
  [3, 1, 4, 0, 9, 2, 6, 5, 8, 7].foldl qps_demo_attach (some qps_selection_init_new)

def qps_demo_ten_s : QpsSelection := qps_demo_ten.getD qps_selection_init_new

def qps_demo_eleven_s : QpsSelection :=
  (qps_add_file qps_demo_ten_s qps_detached_file 12 0).getD qps_selection_init_new

def qps_demo_attach_res : QpsSelection :=
  (qps_add_file qps_demo_idle qps_detached_file 2 0).getD qps_selection_init_new

def qps_demo_remove_res : QpsSelection :=
  (qps_file_remove qps_demo_idle 5).getD qps_selection_init_new

def qps_demo_ream_res : QpsSelection × Option QpsFile :=
  (qps_selection_ream_keep qps_demo_idle).getD (qps_selection_init_new, none)

/-! # Theorems -/

/-! ## Bit-scan correctness (qps_next_fd_pending) -/

theorem qps_word_scan_empty (fuel fd b : ℕ) :
    qps_word_scan fuel (∅ : Finset ℕ) fd b = none := by
  induction fuel generalizing fd with
  | zero => rfl
  | succ n ih =>
    rw [qps_word_scan]
    simp only [Finset.filter_empty, Finset.not_nonempty_empty, if_false]
    split
    · rfl
    · exact ih _

theorem qps_word_scan_finds (s : Finset ℕ) (m b : ℕ) (hmem : m ∈ s)
    (hmb : m ≤ b) :
    ∀ fuel fd, fd ≤ m → m / 32 - fd / 32 < fuel →
      ∃ fd1, qps_word_scan fuel s fd b = some fd1 ∧ fd1 ≤ m := by
  intro fuel
  induction fuel with
  | zero => intro fd _ h; omega
  | succ n ih =>
    intro fd hfd hfuel
    rw [qps_word_scan]
    by_cases hne : (s.filter (fun x => x / 32 = fd / 32)).Nonempty
    · exact ⟨fd, by simp [hne], hfd⟩
    · simp only [hne, if_false]
      have hdiv : fd / 32 < m / 32 := by
        have h1 : fd / 32 ≤ m / 32 := Nat.div_le_div_right hfd
        rcases Nat.lt_or_ge (fd / 32) (m / 32) with h | h
        · exact h
        · exfalso
          exact hne ⟨m, Finset.mem_filter.2 ⟨hmem, by omega⟩⟩
      have hle : (fd / 32) * 32 + 32 ≤ m := by omega
      have : ¬ b < (fd / 32) * 32 + 32 := by omega
      simp only [this, if_false]
      exact ih _ hle (by omega)

theorem qps_byte_scan_finds (s : Finset ℕ) (m b : ℕ) (hmem : m ∈ s)
    (hmin : ∀ x ∈ s, m ≤ x) (hmb : m ≤ b) :
    ∀ fuel fd, fd % 8 = 0 → fd ≤ m → m / 8 - fd / 8 < fuel →
      qps_byte_scan fuel s fd b = some m := by
  intro fuel
  induction fuel with
  | zero => intro fd _ _ h; omega
  | succ n ih =>
    intro fd h8 hfd hfuel
    rw [qps_byte_scan]
    by_cases hdd : fd / 8 = m / 8
    · have hmm : m ∈ s.filter (fun x => x / 8 = fd / 8) :=
        Finset.mem_filter.2 ⟨hmem, by omega⟩
      have hne : (s.filter (fun x => x / 8 = fd / 8)).Nonempty := ⟨m, hmm⟩
      have hminval : (s.filter (fun x => x / 8 = fd / 8)).min' hne = m := by
        apply le_antisymm (Finset.min'_le _ _ hmm)
        apply Finset.le_min'
        intro y hy
        exact hmin y (Finset.mem_filter.1 hy).1
      simp only [hne, dif_pos, hminval]
      congr 1
      omega
    · have hne : ¬ (s.filter (fun x => x / 8 = fd / 8)).Nonempty := by
        rintro ⟨y, hy⟩
        rcases Finset.mem_filter.1 hy with ⟨hys, hyd⟩
        have h1 : fd / 8 ≤ m / 8 := Nat.div_le_div_right hfd
        have h2 : fd / 8 < m / 8 := by omega
        have h3 : y < m := by omega
        exact absurd (hmin y hys) (by omega)
      have h1 : fd / 8 ≤ m / 8 := Nat.div_le_div_right hfd
      have h2 : fd / 8 < m / 8 := by omega
      have hle : fd + 8 ≤ m := by omega
      have hnb : ¬ b < fd + 8 := by omega
      simp only [hne, dif_neg, not_false_iff, hnb, if_false]
      exact ih (fd + 8) (by omega) hle (by omega)

theorem qps_next_fd_pending_none (a b : ℕ) :
    qps_next_fd_pending (∅ : Finset ℕ) a b = (-1, ∅) := by
  unfold qps_next_fd_pending
  rw [qps_word_scan_empty]

theorem qps_next_fd_pending_min (s : Finset ℕ) (a b : ℕ)
    (hin : ∀ x ∈ s, a ≤ x ∧ x ≤ b) (h : s.Nonempty) :
    qps_next_fd_pending s a b = ((s.min' h : ℤ), s.erase (s.min' h)) := by
  set m := s.min' h with hm
  have hmem : m ∈ s := Finset.min'_mem s h
  have hmin : ∀ x ∈ s, m ≤ x := fun x hx => Finset.min'_le s x hx
  have ham : a ≤ m := (hin m hmem).1
  have hmb : m ≤ b := (hin m hmem).2
  obtain ⟨fd1, hw, hfd1⟩ :=
    qps_word_scan_finds s m b hmem hmb (b / 32 + 2) a ham
      (by have h32 : m / 32 ≤ b / 32 := Nat.div_le_div_right hmb; omega)
  have hb2 : qps_byte_scan (b / 8 + 2) s ((fd1 / 8) * 8) b = some m := by
    apply qps_byte_scan_finds s m b hmem hmin hmb
    · omega
    · have := Nat.div_mul_le_self fd1 8; omega
    · have h1 : fd1 / 8 ≤ m / 8 := Nat.div_le_div_right hfd1
      have h2 : m / 8 ≤ b / 8 := Nat.div_le_div_right hmb
      have h3 : ((fd1 / 8) * 8) / 8 = fd1 / 8 := by omega
      omega
  unfold qps_next_fd_pending
  simp only [hw, hb2]

/-! ## C4: scan_next (qps_next_fd_pending) -/

/-- C4 counterexample.  The claim states that for every descriptor set
and every `0 ≤ fd_start ≤ fd_last < MAX_FD`, scan_next returns the
smallest descriptor in `[fd_start, fd_last]` whose bit is set and `-1`
when no descriptor in that range is set.  With the set `{0}`,
`fd_start = 1`, `fd_last = 1`, no descriptor in range is set, yet the
code returns descriptor 0 (the word and byte holding `fd_start` are
non-zero because of the bit *below* the start, and `fd_first_map`
yields that lower bit), and clears it. -/
theorem qps_next_fd_pending_below_start :
    (∀ x ∈ ({0} : Finset ℕ), ¬ (1 ≤ x ∧ x ≤ 1)) ∧
    qps_next_fd_pending ({0} : Finset ℕ) 1 1 ≠ (-1, ({0} : Finset ℕ)) ∧
    qps_next_fd_pending ({0} : Finset ℕ) 1 1 = (0, (∅ : Finset ℕ)) := by
  decide

/-- C4 as amended: when additionally every set bit lies in
`[fd_start, fd_last]` (which holds at every call site, because result
bits never exceed `tried_fd_last` and never lie below the scan
cursor), `qps_next_fd_pending` returns the smallest descriptor
`fd_start ≤ fd ≤ fd_last` whose bit is set, clearing exactly that bit,
and returns `-1` (set unchanged) when no descriptor in the range has
its bit set. -/
theorem qps_next_fd_pending_spec (s : Finset ℕ) (a b : ℕ)
    (hab : a ≤ b) (hb : b < FD_SETSIZE)
    (hin : ∀ x ∈ s, a ≤ x ∧ x ≤ b) :
    (∀ h : s.Nonempty,
        qps_next_fd_pending s a b = ((s.min' h : ℤ), s.erase (s.min' h)) ∧
        a ≤ s.min' h ∧ s.min' h ≤ b ∧ ∀ x ∈ s, s.min' h ≤ x) ∧
    (s = ∅ → qps_next_fd_pending s a b = (-1, s)) := by
  constructor
  · intro h
    refine ⟨qps_next_fd_pending_min s a b hin h, ?_, ?_, ?_⟩
    · exact (hin _ (Finset.min'_mem s h)).1
    · exact (hin _ (Finset.min'_mem s h)).2
    · exact fun x hx => Finset.min'_le s x hx
  · intro he
    subst he
    exact qps_next_fd_pending_none a b

/-- Witness for the amended C4 at a concrete input: set `{3, 5}`,
range `[2, 7]`: the scan returns 3 and clears exactly that bit. -/
theorem qps_next_fd_pending_spec_witness :
    qps_next_fd_pending ({3, 5} : Finset ℕ) 2 7 = ((3 : ℤ), ({5} : Finset ℕ)) := by
  have h := (qps_next_fd_pending_spec ({3, 5} : Finset ℕ) 2 7 (by decide) (by decide)
    (by decide)).1 (by decide)
  exact h.1.trans (by decide)

/-! ## C6: the mode range check (qps_enable_mode / qps_set_action) -/

/-- C6: the range check both functions apply to the mode argument is
`dassert((mnum >= 0) && (mnum <= qps_mnum_count))`; with
`mnum = qps_mnum_count = 3` -- the out-of-range mode the claim says is
rejected -- the check passes (the code then proceeds into
`actions[3]` / `enabled[3]`, out of bounds), while `mnum = 4` is the
first value it rejects.  The correct bound is `mnum < qps_mnum_count`. -/
theorem qps_mode_range_check_off_by_one :
    qps_mode_range_check (qps_mnum_count : ℤ) = true ∧
    ¬ ((qps_mnum_count : ℤ) < (qps_mnum_count : ℤ)) ∧
    qps_mode_range_check ((qps_mnum_count : ℤ) + 1) = false := by
  decide

/-! ## C10: set_signal with signum = 0 -/

/-- C10: `qps_set_signal(S, 0, mask)` stores `signum = 0` and touches
nothing else -- in particular the stored `sigmask` keeps its previous
value and the supplied mask is ignored -- and a subsequent wait passes
no mask to the poll primitive (`NULL` rather than `&qps->sigmask`). -/
theorem qps_set_signal_zero_frame (S : QpsSelection) (mask : Finset ℕ) :
    qps_set_signal S 0 mask = some { S with signum := 0 } ∧
    (qps_set_signal S 0 mask).map (fun S1 => S1.sigmask) = some S.sigmask ∧
    qps_pselect_mask_arg { S with signum := 0 } = none := by
  refine ⟨rfl, rfl, ?_⟩
  simp [qps_pselect_mask_arg]

/-! ## C3: the three non-abort outcomes of the wait (qps_pselect) -/

/-- C3: `qps_pselect` has exactly three non-abort outcomes.  When the
poll primitive reports readiness it never aborts, and the result is
either `n > 0` with `pend_count := n` returned, or a timeout shape:
return 0 with all three result sets zeroed and `pend_count := 0`.
When the poll primitive fails with EINTR the wait zeroes all three
result sets, sets `pend_count := 0` and returns -1.  Any other poll
error aborts the process. -/
theorem qps_pselect_outcomes :
    (∀ (S : QpsSelection) (r : Fin 3 → Finset ℕ),
        ∃ q, qps_pselect S (PollOutcome.ev r) = some q) ∧
    (∀ (S : QpsSelection) (r : Fin 3 → Finset ℕ) (S1 : QpsSelection) (k : ℤ),
        qps_pselect S (PollOutcome.ev r) = some (S1, k) →
          (0 < k ∧ (S1.pend_count : ℤ) = k) ∨
          (k = 0 ∧ S1.pend_count = 0 ∧ ∀ m, S1.results m = ∅)) ∧
    (∀ S : QpsSelection, ∃ S1, qps_pselect S PollOutcome.intr = some (S1, -1) ∧
        S1.pend_count = 0 ∧ ∀ m, S1.results m = ∅) ∧
    (∀ S : QpsSelection, qps_pselect S PollOutcome.err = none) := by
  have key : ∀ (S : QpsSelection) (r : Fin 3 → Finset ℕ),
      ∃ q, qps_pselect S (PollOutcome.ev r) = some q ∧
        ((0 < q.2 ∧ (q.1.pend_count : ℤ) = q.2) ∨
         (q.2 = 0 ∧ q.1.pend_count = 0 ∧ ∀ m, q.1.results m = ∅)) := by
    intro S r
    unfold qps_pselect
    dsimp only
    by_cases hn : 0 < Finset.univ.sum fun m =>
        if S.enabled_count m ≠ 0 then
          (((if S.enabled_count m ≠ 0 then
              (S.enabled m).filter (fun x => x < qps_byte_copy_bound S.fd_last) ∪
                ((if S.pend_count ≠ 0 then (fun _ => ∅) else S.results) m).filter
                  (fun x => ¬ x < qps_byte_copy_bound S.fd_last)
            else (if S.pend_count ≠ 0 then (fun _ => ∅) else S.results) m) ∩ r m)).card
        else 0
    · have hpm : (if S.enabled_count 0 ≠ 0 then 0
          else if S.enabled_count 1 ≠ 0 then 1
          else if S.enabled_count 2 ≠ 0 then 2 else 3) < 3 := by
        by_cases h0 : S.enabled_count 0 ≠ 0
        · simp [h0]
        · by_cases h1 : S.enabled_count 1 ≠ 0
          · simp [h0, h1]
          · by_cases h2 : S.enabled_count 2 ≠ 0
            · simp [h0, h1, h2]
            · exfalso
              have hz : ∀ m : Fin 3, S.enabled_count m = 0 := by
                intro m
                fin_cases m <;>
                  first
                    | exact not_not.mp h0
                    | exact not_not.mp h1
                    | exact not_not.mp h2
              simp [hz] at hn
      rw [if_pos hn, if_pos hpm]
      refine ⟨_, rfl, Or.inl ⟨?_, rfl⟩⟩
      dsimp only
      exact_mod_cast hn
    · rw [if_neg hn]
      exact ⟨_, rfl, Or.inr ⟨rfl, rfl, fun m => rfl⟩⟩
  refine ⟨?_, ?_, ?_, ?_⟩
  · intro S r
    obtain ⟨q, hq, _⟩ := key S r
    exact ⟨q, hq⟩
  · intro S r S1 k h
    obtain ⟨q, hq, hshape⟩ := key S r
    rw [hq] at h
    injection h with h
    rw [h] at hshape
    simpa using hshape
  · intro S
    exact ⟨_, rfl, rfl, fun m => rfl⟩
  · intro S
    rfl

/-- C3 witness: a selection with one read-enabled descriptor (fd 5)
that the kernel reports ready yields return value 1 and
`pend_count = 1`. -/
theorem qps_pselect_outcomes_witness :
    qps_pselect qps_demo_idle (PollOutcome.ev (fun _ => {5})) =
      some qps_demo_wait_res ∧
    ((0 < qps_demo_wait_res.2 ∧
        ((qps_demo_wait_res.1.pend_count : ℤ) = qps_demo_wait_res.2)) ∨
     (qps_demo_wait_res.2 = 0 ∧ qps_demo_wait_res.1.pend_count = 0 ∧
        ∀ m, qps_demo_wait_res.1.results m = ∅)) :=
  ⟨by decide,
   qps_pselect_outcomes.2.1 qps_demo_idle (fun _ => {5})
     qps_demo_wait_res.1 qps_demo_wait_res.2 (by decide)⟩

/-! ## Files-vector lemmas: sparse representation -/

theorem qps_mem_le_foldr_max (L : List ℕ) (x : ℕ) (hx : x ∈ L) :
    x ≤ L.foldr max 0 := by
  induction L with
  | nil => cases hx
  | cons a t ih =>
    rcases List.mem_cons.1 hx with rfl | hx
    · exact le_max_left _ _
    · exact le_trans (ih hx) (le_max_right _ _)

theorem qps_foldr_max_le (L : List ℕ) (M : ℕ) (hub : ∀ x ∈ L, x ≤ M) :
    L.foldr max 0 ≤ M := by
  induction L with
  | nil => exact Nat.zero_le M
  | cons a t ih =>
    simp only [List.foldr_cons]
    exact max_le (hub a (List.mem_cons_self _ _))
      (ih (fun x hx => hub x (List.mem_cons_of_mem a hx)))

theorem qps_foldr_max_eq (L : List ℕ) (M : ℕ) (hub : ∀ x ∈ L, x ≤ M)
    (hmem : M ∈ L) : L.foldr max 0 = M :=
  le_antisymm (qps_foldr_max_le L M hub) (qps_mem_le_foldr_max L M hmem)

theorem qps_sparse_insert_mem (l : List QpsFile) (F x : QpsFile) :
    x ∈ qps_sparse_insert l F ↔ x = F ∨ x ∈ l := by
  induction l with
  | nil => simp [qps_sparse_insert]
  | cons g t ih =>
    rw [qps_sparse_insert]
    split
    · simp [or_assoc]
    · simp only [List.mem_cons, ih]
      tauto

theorem qps_sparse_insert_length (l : List QpsFile) (F : QpsFile) :
    (qps_sparse_insert l F).length = l.length + 1 := by
  induction l with
  | nil => rfl
  | cons g t ih =>
    rw [qps_sparse_insert]
    split <;> simp [ih]

theorem qps_sparse_insert_map_fd_max (l : List QpsFile) (F : QpsFile) :
    ((qps_sparse_insert l F).map (fun g => g.fd)).foldr max 0 =
      max F.fd ((l.map (fun g => g.fd)).foldr max 0) := by
  induction l with
  | nil => simp [qps_sparse_insert]
  | cons g t ih =>
    rw [qps_sparse_insert]
    split
    · simp
    · simp only [List.map_cons, List.foldr_cons, ih]
      omega

theorem qps_sparse_insert_pairwise (l : List QpsFile) (F : QpsFile)
    (hl : List.Pairwise (fun a b : QpsFile => a.fd < b.fd) l)
    (hne : ∀ g ∈ l, g.fd ≠ F.fd) :
    List.Pairwise (fun a b : QpsFile => a.fd < b.fd) (qps_sparse_insert l F) := by
  induction l with
  | nil => simp [qps_sparse_insert]
  | cons g t ih =>
    rcases List.pairwise_cons.1 hl with ⟨hg, ht⟩
    rw [qps_sparse_insert]
    split
    · rename_i hlt
      exact List.pairwise_cons.2 ⟨by
        intro x hx
        rcases List.mem_cons.1 hx with rfl | hx
        · exact hlt
        · exact lt_trans hlt (hg x hx), hl⟩
    · rename_i hge
      have hgF : g.fd < F.fd :=
        lt_of_le_of_ne (not_lt.1 hge) (hne g (List.mem_cons_self _ _))
      refine List.pairwise_cons.2 ⟨?_, ih ht (fun x hx => hne x (List.mem_cons_of_mem g hx))⟩
      intro x hx
      rcases (qps_sparse_insert_mem t F x).1 hx with rfl | hx
      · exact hgF
      · exact hg x hx

theorem qps_sparse_insert_find (l : List QpsFile) (F : QpsFile) (fd : ℕ)
    (hF : F.fd = fd) (hne : ∀ g ∈ l, g.fd ≠ fd) :
    (qps_sparse_insert l F).find? (fun g => g.fd == fd) = some F := by
  induction l with
  | nil => simp [qps_sparse_insert, List.find?, hF]
  | cons g t ih =>
    rw [qps_sparse_insert]
    split
    · simp [List.find?, hF]
    · have hg : (g.fd == fd) = false := by
        simp [hne g (List.mem_cons_self _ _)]
      simp only [List.find?, hg]
      exact ih (fun x hx => hne x (List.mem_cons_of_mem g hx))

theorem qps_sparse_insert_delete (l : List QpsFile) (F : QpsFile) (fd : ℕ)
    (hF : F.fd = fd) (hne : ∀ g ∈ l, g.fd ≠ fd) :
    qps_sparse_delete (qps_sparse_insert l F) fd = l := by
  induction l with
  | nil => simp [qps_sparse_insert, qps_sparse_delete, hF]
  | cons g t ih =>
    rw [qps_sparse_insert]
    split
    · simp [qps_sparse_delete, hF]
    · rw [qps_sparse_delete]
      rw [if_neg (hne g (List.mem_cons_self _ _))]
      rw [ih (fun x hx => hne x (List.mem_cons_of_mem g hx))]

theorem qps_sparse_delete_sublist (l : List QpsFile) (fd : ℕ) :
    List.Sublist (qps_sparse_delete l fd) l := by
  induction l with
  | nil => exact List.Sublist.refl _
  | cons g t ih =>
    rw [qps_sparse_delete]
    split
    · exact List.sublist_cons_self g t
    · exact List.Sublist.cons₂ g ih

theorem qps_sparse_delete_length (l : List QpsFile) (fd : ℕ) (F : QpsFile)
    (h : l.find? (fun g => g.fd == fd) = some F) :
    (qps_sparse_delete l fd).length + 1 = l.length := by
  induction l with
  | nil => simp [List.find?] at h
  | cons g t ih =>
    rw [qps_sparse_delete]
    by_cases hg : g.fd = fd
    · simp [hg]
    · rw [if_neg hg]
      have hgb : (g.fd == fd) = false := by simp [hg]
      rw [List.find?_cons, hgb] at h
      simp only [List.length_cons]
      rw [← ih h]

theorem qps_sparse_max_getLast (l : List QpsFile)
    (hl : List.Pairwise (fun a b : QpsFile => a.fd < b.fd) l) :
    (l.map (fun g => g.fd)).foldr max 0 =
      ((l.getLast?).map (fun g => g.fd)).getD 0 := by
  induction l with
  | nil => rfl
  | cons g t ih =>
    rcases List.pairwise_cons.1 hl with ⟨hg, ht⟩
    cases t with
    | nil => simp
    | cons h2 t2 =>
      have hlast : (g :: h2 :: t2).getLast? = (h2 :: t2).getLast? := by
        simp [List.getLast?]
      rw [hlast, List.map_cons, List.foldr_cons, ih ht]
      have hle : g.fd ≤ ((h2 :: t2).map (fun g => g.fd)).foldr max 0 := by
        have : h2.fd ∈ (h2 :: t2).map (fun g => g.fd) := by simp
        have h1 := qps_mem_le_foldr_max _ _ this
        have h2' : g.fd < h2.fd := hg h2 (List.mem_cons_self _ _)
        omega
      rw [← ih ht]
      omega

/-! ## Files-vector lemmas: dense representation -/

theorem qps_getD_some_lt_length (l : List (Option QpsFile)) (i : ℕ) (g : QpsFile)
    (h : l.getD i none = some g) : i < l.length := by
  by_contra hn
  rw [List.getD_eq_default l none (by omega)] at h
  cases h

theorem qps_set_getD (l : List (Option QpsFile)) (i j : ℕ) (v : Option QpsFile) :
    (l.set i v).getD j none =
      if j = i ∧ i < l.length then v else l.getD j none := by
  induction l generalizing i j with
  | nil => simp
  | cons a t ih =>
    cases i with
    | zero =>
      cases j with
      | zero => simp
      | succ j => simp [List.getD_cons_succ]
    | succ i =>
      cases j with
      | zero => simp [List.getD_cons_zero]
      | succ j =>
        rw [List.set_cons_succ, List.getD_cons_succ, List.getD_cons_succ, ih]
        have hlc : (a :: t).length = t.length + 1 := rfl
        by_cases h1 : j = i ∧ i < t.length
        · rw [if_pos h1, if_pos (by omega)]
        · rw [if_neg h1, if_neg (by omega)]

theorem qps_getD_replicate (k m : ℕ) :
    (List.replicate k (none : Option QpsFile)).getD m none = none := by
  induction k generalizing m with
  | zero => simp
  | succ k ih =>
    cases m with
    | zero => simp [List.replicate_succ]
    | succ m => simp only [List.replicate_succ, List.getD_cons_succ]; exact ih m

theorem qps_dense_set_getD (l : List (Option QpsFile)) (i : ℕ) (f : QpsFile)
    (j : ℕ) :
    (qps_dense_set l i f).getD j none =
      if j = i then some f else l.getD j none := by
  unfold qps_dense_set
  split
  · rename_i hi
    rw [qps_set_getD]
    by_cases hj : j = i
    · rw [if_pos ⟨hj, hi⟩, if_pos hj]
    · rw [if_neg (by tauto), if_neg hj]
  · rename_i hi
    have hA : (l ++ List.replicate (i - l.length) none).length = i := by
      rw [List.length_append, List.length_replicate]
      omega
    rcases Nat.lt_trichotomy j i with hj | hj | hj
    · rw [List.getD_append _ _ _ _ (by omega), if_neg (by omega)]
      by_cases hjl : j < l.length
      · rw [List.getD_append _ _ _ _ hjl]
      · rw [List.getD_append_right _ _ _ _ (by omega), qps_getD_replicate,
          List.getD_eq_default l none (by omega)]
    · subst hj
      rw [List.getD_append_right _ _ _ _ (by omega), if_pos rfl, hA]
      simp
    · rw [if_neg (by omega)]
      have hlen : ((l ++ List.replicate (i - l.length) none) ++ [some f]).length
          = i + 1 := by
        rw [List.length_append, hA]
        rfl
      rw [List.getD_eq_default _ none (by omega),
        List.getD_eq_default l none (by omega)]

theorem qps_dense_set_length (l : List (Option QpsFile)) (i : ℕ) (f : QpsFile) :
    (qps_dense_set l i f).length = max l.length (i + 1) := by
  unfold qps_dense_set
  split
  · rw [List.length_set]; omega
  · simp; omega

theorem qps_filterMap_replicate (k : ℕ) :
    (List.replicate k (none : Option QpsFile)).filterMap id = [] := by
  induction k with
  | zero => rfl
  | succ k ih => simp [List.replicate_succ, ih]

theorem qps_mem_filterMap_id (l : List (Option QpsFile)) (g : QpsFile) :
    g ∈ l.filterMap id ↔ some g ∈ l := by
  simp [List.mem_filterMap]

theorem qps_set_some_filterMap_length (l : List (Option QpsFile)) (i : ℕ)
    (f : QpsFile) (hd : l.getD i none = none) (hi : i < l.length) :
    ((l.set i (some f)).filterMap id).length = (l.filterMap id).length + 1 := by
  induction l generalizing i with
  | nil => simp at hi
  | cons a t ih =>
    cases i with
    | zero =>
      rw [List.getD_cons_zero] at hd
      subst hd
      simp
    | succ i =>
      rw [List.getD_cons_succ] at hd
      rw [List.set_cons_succ]
      cases a with
      | none => simpa using ih i hd (by simpa using hi)
      | some g => simpa using ih i hd (by simpa using hi)

theorem qps_set_none_filterMap_length (l : List (Option QpsFile)) (i : ℕ)
    (F : QpsFile) (hd : l.getD i none = some F) :
    ((l.set i none).filterMap id).length + 1 = (l.filterMap id).length := by
  induction l generalizing i with
  | nil => simp at hd
  | cons a t ih =>
    cases i with
    | zero =>
      rw [List.getD_cons_zero] at hd
      subst hd
      simp
    | succ i =>
      rw [List.getD_cons_succ] at hd
      rw [List.set_cons_succ]
      cases a with
      | none => simpa using ih i hd
      | some g => simpa using ih i hd

theorem qps_dense_set_filterMap_length (l : List (Option QpsFile)) (i : ℕ)
    (f : QpsFile) (hd : l.getD i none = none) :
    ((qps_dense_set l i f).filterMap id).length = (l.filterMap id).length + 1 := by
  unfold qps_dense_set
  split
  · rename_i hi
    exact qps_set_some_filterMap_length l i f hd hi
  · rw [List.filterMap_append, List.filterMap_append, qps_filterMap_replicate]
    simp

theorem qps_dense_idx_ok_iff (l : List (Option QpsFile)) :
    qps_dense_idx_ok l = true ↔ ∀ i g, l.getD i none = some g → g.fd = i := by
  unfold qps_dense_idx_ok
  rw [List.all_eq_true]
  constructor
  · intro h i g hg
    have hi : i < l.length := qps_getD_some_lt_length l i g hg
    have h2 := h i (List.mem_range.2 hi)
    rw [hg] at h2
    simpa using h2
  · intro h i _
    cases hgd : l.getD i none with
    | none => simp
    | some g => simpa using h i g hgd

theorem qps_dense_last_ok_iff (l : List (Option QpsFile)) :
    qps_dense_last_ok l = true ↔
      (l = [] ∨ (l.getD (l.length - 1) none).isSome = true) := by
  unfold qps_dense_last_ok
  rw [Bool.or_eq_true, List.isEmpty_iff]

theorem qps_dense_last_ok_shift (x : Option QpsFile) (t : List (Option QpsFile))
    (h : qps_dense_last_ok (x :: t) = true) (ht : t ≠ []) :
    qps_dense_last_ok t = true := by
  rw [qps_dense_last_ok_iff] at h ⊢
  rcases h with h | h
  · cases h
  · right
    have hlen : (x :: t).length - 1 = (t.length - 1) + 1 := by
      have h1 : t.length ≠ 0 := fun hh => ht (List.length_eq_zero.1 hh)
      have h2 : (x :: t).length = t.length + 1 := rfl
      omega
    rwa [hlen, List.getD_cons_succ] at h

theorem qps_dense_trim_cons (x : Option QpsFile) (t : List (Option QpsFile)) :
    qps_dense_trim (x :: t) =
      if qps_dense_trim t = [] ∧ x = none then [] else x :: qps_dense_trim t := by
  rw [qps_dense_trim]
  by_cases hc : qps_dense_trim t = [] ∧ x = none
  · rw [if_pos hc]
    rcases hc with ⟨h1, h2⟩
    rw [h1, h2]
    rfl
  · rw [if_neg hc]
    have : ((qps_dense_trim t).isEmpty && x.isNone) = false := by
      rcases htt : qps_dense_trim t with _ | ⟨a, as⟩ <;> rcases x with _ | g <;>
        simp_all
    rw [this]
    simp

theorem qps_dense_trim_replicate (k : ℕ) :
    qps_dense_trim (List.replicate k (none : Option QpsFile)) = [] := by
  induction k with
  | zero => rfl
  | succ k ih =>
    rw [List.replicate_succ, qps_dense_trim_cons, if_pos ⟨ih, rfl⟩]

theorem qps_dense_trim_eq_self (l : List (Option QpsFile))
    (h : qps_dense_last_ok l = true) : qps_dense_trim l = l := by
  induction l with
  | nil => rfl
  | cons x t ih =>
    rw [qps_dense_trim_cons]
    by_cases ht : t = []
    · subst ht
      have hx : x.isSome = true := by
        rw [qps_dense_last_ok_iff] at h
        rcases h with h | h
        · cases h
        · simpa using h
      rcases x with _ | g
      · cases hx
      · simp [qps_dense_trim]
    · rw [ih (qps_dense_last_ok_shift x t h ht)]
      rw [if_neg (by tauto)]

theorem qps_dense_trim_append_replicate (l : List (Option QpsFile))
    (h : qps_dense_last_ok l = true) (k : ℕ) :
    qps_dense_trim (l ++ List.replicate k none) = l := by
  induction l with
  | nil => exact qps_dense_trim_replicate k
  | cons x t ih =>
    rw [List.cons_append, qps_dense_trim_cons]
    by_cases ht : t = []
    · subst ht
      have hx : x.isSome = true := by
        rw [qps_dense_last_ok_iff] at h
        rcases h with h | h
        · cases h
        · simpa using h
      rw [List.nil_append, qps_dense_trim_replicate]
      rcases x with _ | g
      · cases hx
      · simp
    · rw [ih (qps_dense_last_ok_shift x t h ht)]
      rw [if_neg (by tauto)]

theorem qps_dense_trim_getD (l : List (Option QpsFile)) :
    ∀ j, j < (qps_dense_trim l).length →
      (qps_dense_trim l).getD j none = l.getD j none := by
  induction l with
  | nil => intro j hj; simp [qps_dense_trim] at hj
  | cons x t ih =>
    intro j hj
    rw [qps_dense_trim_cons] at hj ⊢
    by_cases hc : qps_dense_trim t = [] ∧ x = none
    · rw [if_pos hc] at hj
      simp at hj
    · rw [if_neg hc] at hj ⊢
      cases j with
      | zero => simp
      | succ j =>
        rw [List.getD_cons_succ, List.getD_cons_succ]
        exact ih j (by simpa using hj)

theorem qps_dense_trim_filterMap (l : List (Option QpsFile)) :
    (qps_dense_trim l).filterMap id = l.filterMap id := by
  induction l with
  | nil => rfl
  | cons x t ih =>
    rw [qps_dense_trim_cons]
    by_cases hc : qps_dense_trim t = [] ∧ x = none
    · rcases hc with ⟨hc1, hc2⟩
      subst hc2
      rw [if_pos ⟨hc1, rfl⟩]
      have ht0 : t.filterMap id = [] := by rw [← ih, hc1]; rfl
      have h2 : List.filterMap id (none :: t) = List.filterMap id t := rfl
      rw [h2, ht0]
      rfl
    · rw [if_neg hc]
      rcases x with _ | g <;> simp [ih]

theorem qps_dense_trim_last_ok (l : List (Option QpsFile)) :
    qps_dense_last_ok (qps_dense_trim l) = true := by
  induction l with
  | nil => rfl
  | cons x t ih =>
    rw [qps_dense_trim_cons]
    by_cases hc : qps_dense_trim t = [] ∧ x = none
    · rw [if_pos hc]; rfl
    · rw [if_neg hc]
      by_cases ht : qps_dense_trim t = []
      · have hx : x ≠ none := by tauto
        rw [ht]
        rcases x with _ | g
        · exact absurd rfl hx
        · rfl
      · rw [qps_dense_last_ok_iff]
        right
        rw [qps_dense_last_ok_iff] at ih
        rcases ih with ih | ih
        · exact absurd ih ht
        · have hlen : (x :: qps_dense_trim t).length - 1 =
              ((qps_dense_trim t).length - 1) + 1 := by
            have : (qps_dense_trim t).length ≠ 0 :=
              fun hh => ht (List.length_eq_zero.1 hh)
            simp [List.length_cons]
            omega
          rwa [hlen, List.getD_cons_succ]

/-- For a valid dense vector, the largest descriptor present is the
last slot's index. -/
theorem qps_dense_files_max (l : List (Option QpsFile))
    (hidx : qps_dense_idx_ok l = true) (hlast : qps_dense_last_ok l = true) :
    qps_files_max (QpsFiles.dense l) = if l.length = 0 then 0 else l.length - 1 := by
  by_cases hl : l.length = 0
  · rw [if_pos hl]
    rw [List.length_eq_zero] at hl
    subst hl
    rfl
  · rw [if_neg hl]
    unfold qps_files_max qps_files_fds qps_files_list
    apply qps_foldr_max_eq
    · intro x hx
      rcases List.mem_map.1 hx with ⟨g, hg, rfl⟩
      rcases (qps_mem_filterMap_id l g).1 hg with hmem
      rcases List.mem_iff_getElem.1 hmem with ⟨i, hi, hget⟩
      have hgd : l.getD i none = some g := by
        rw [List.getD_eq_getElem l none hi, hget]
      have := (qps_dense_idx_ok_iff l).1 hidx i g hgd
      omega
    · rw [qps_dense_last_ok_iff] at hlast
      rcases hlast with h | h
      · exact absurd (by rw [h]; rfl) hl
      · rcases Option.isSome_iff_exists.1 h with ⟨g, hg⟩
        have hfd := (qps_dense_idx_ok_iff l).1 hidx _ g hg
        have hmem : some g ∈ l := by
          have hil : l.length - 1 < l.length := by omega
          rw [List.getD_eq_getElem l none hil] at hg
          rw [← hg]
          exact List.getElem_mem hil
        rw [← hfd]
        exact List.mem_map_of_mem _ ((qps_mem_filterMap_id l g).2 hmem)

/-! ## Files-vector lemmas: sparse-to-dense conversion -/

theorem qps_to_dense_getD (l : List QpsFile) (i : ℕ) :
    (qps_to_dense l).getD i none = l.find? (fun g => g.fd == i) := by
  induction l with
  | nil => rfl
  | cons g t ih =>
    show (qps_dense_set (qps_to_dense t) g.fd g).getD i none = _
    rw [qps_dense_set_getD, List.find?_cons]
    by_cases hi : i = g.fd
    · rw [if_pos hi]
      have : (g.fd == i) = true := by simp [hi]
      rw [this]
    · rw [if_neg hi]
      have hb : (g.fd == i) = false := by
        simp
        omega
      rw [hb]
      exact ih

theorem qps_to_dense_length (l : List QpsFile) :
    (qps_to_dense l).length = (l.map (fun g => g.fd + 1)).foldr max 0 := by
  induction l with
  | nil => rfl
  | cons g t ih =>
    show (qps_dense_set (qps_to_dense t) g.fd g).length = _
    rw [qps_dense_set_length, ih]
    simp only [List.map_cons, List.foldr_cons]
    omega

theorem qps_map_fd_succ_foldr_max (l : List QpsFile) (h : l ≠ []) :
    (l.map (fun g => g.fd + 1)).foldr max 0 =
      (l.map (fun g => g.fd)).foldr max 0 + 1 := by
  induction l with
  | nil => exact absurd rfl h
  | cons g t ih =>
    cases t with
    | nil => simp
    | cons h2 t2 =>
      have := ih (by simp)
      simp only [List.map_cons, List.foldr_cons] at this ⊢
      omega

theorem qps_to_dense_filterMap_length (l : List QpsFile)
    (hl : List.Pairwise (fun a b : QpsFile => a.fd < b.fd) l) :
    ((qps_to_dense l).filterMap id).length = l.length := by
  induction l with
  | nil => rfl
  | cons g t ih =>
    rcases List.pairwise_cons.1 hl with ⟨hg, ht⟩
    show ((qps_dense_set (qps_to_dense t) g.fd g).filterMap id).length = _
    rw [qps_dense_set_filterMap_length]
    · rw [ih ht]
      rfl
    · rw [qps_to_dense_getD]
      rw [List.find?_eq_none]
      intro x hx
      have := hg x hx
      simp
      omega

theorem qps_to_dense_idx_ok (l : List QpsFile) :
    qps_dense_idx_ok (qps_to_dense l) = true := by
  rw [qps_dense_idx_ok_iff]
  intro i g hg
  rw [qps_to_dense_getD] at hg
  have := List.find?_some hg
  simpa using this

/-! ## C5: sparse-to-dense conversion on attach -/

/-- C5 counterexample.  The claim says that immediately after an
attach leaves `fd_count > 9` the collection has been converted to the
dense representation, and in particular that the tenth attach
converts.  Attaching ten descriptors in scrambled order leaves
`fd_count = 10 > 9` with the collection still sparse: the conversion
check `fd_count > 9` runs *before* the insert, so it is the eleventh
attach that converts. -/
theorem qps_tenth_attach_stays_sparse :
    qps_demo_ten.map (fun S => (S.fd_count, qps_fd_direct S)) = some (10, false) := by
  decide

/-- C5 as amended: for an attach into a sparse selection, the
representation after the insert is dense if and only if `fd_count`
*before* the attach exceeded 9 (equivalently, the post-attach count
exceeds 10): the eleventh attach triggers the conversion, not the
tenth. -/
theorem qps_sparse_attach_conversion (S : QpsSelection) (l : List QpsFile)
    (F : QpsFile) (fd ck : ℕ) (S1 : QpsSelection)
    (hf : S.files = QpsFiles.sparse l)
    (h : qps_add_file S F fd ck = some S1) :
    (qps_fd_direct S1 = true ↔ 9 < S.fd_count) ∧
    S1.fd_count = S.fd_count + 1 := by
  unfold qps_add_file at h
  rw [hf] at h
  by_cases hsel : F.selection = true
  · rw [if_pos hsel] at h; cases h
  · rw [if_neg hsel] at h
    by_cases hlt : fd < FD_SETSIZE
    · rw [if_pos hlt] at h
      dsimp only at h
      by_cases hdup : (List.find? (fun g => g.fd == fd) l).isSome = true
      · rw [if_pos hdup] at h; cases h
      · rw [if_neg hdup] at h
        injection h with h
        subst h
        refine ⟨?_, rfl⟩
        by_cases h9 : 9 < S.fd_count
        · simp only [if_pos h9, qps_fd_direct]
          simp [h9]
        · simp only [if_neg h9, qps_fd_direct]
          simp [h9]
    · rw [if_neg hlt] at h; cases h

/-- Witness for the amended C5: attaching an eleventh descriptor
(fd 12) to the ten-descriptor sparse selection converts it to dense. -/
theorem qps_sparse_attach_conversion_witness :
    (qps_fd_direct qps_demo_eleven_s = true ↔ 9 < qps_demo_ten_s.fd_count) ∧
    qps_demo_eleven_s.fd_count = qps_demo_ten_s.fd_count + 1 :=
  qps_sparse_attach_conversion qps_demo_ten_s
    (qps_files_list qps_demo_ten_s.files) qps_detached_file 12 0
    qps_demo_eleven_s (by decide) (by decide)

/-! ## C8 support lemmas -/

theorem qps_disable_loop_zero (S : QpsSelection) (fd : ℕ) :
    qps_disable_loop S fd 0 = some S := by
  unfold qps_disable_loop
  norm_num

theorem qps_set_none_id (l : List (Option QpsFile)) (i : ℕ)
    (h : l.getD i none = none) : l.set i none = l := by
  induction l generalizing i with
  | nil => rfl
  | cons a t ih =>
    cases i with
    | zero =>
      rw [List.getD_cons_zero] at h
      subst h
      rfl
    | succ i =>
      rw [List.getD_cons_succ] at h
      rw [List.set_cons_succ, ih i h]

theorem qps_set_append_last (xs : List (Option QpsFile)) (a v : Option QpsFile) :
    (xs ++ [a]).set xs.length v = xs ++ [v] := by
  induction xs with
  | nil => rfl
  | cons x t ih => simpa using ih

/-- Setting a fresh slot and then unsetting it (with the vector end
shrinking past trailing empty slots) restores the vector. -/
theorem qps_dense_set_unset (l : List (Option QpsFile)) (fd : ℕ) (F1 : QpsFile)
    (hd : l.getD fd none = none) (hlast : qps_dense_last_ok l = true) :
    qps_dense_trim ((qps_dense_set l fd F1).set fd none) = l := by
  unfold qps_dense_set
  split
  · rename_i hi
    rw [List.set_set, qps_set_none_id l fd hd]
    exact qps_dense_trim_eq_self l hlast
  · rename_i hi
    have hA : (l ++ List.replicate (fd - l.length) none).length = fd := by
      rw [List.length_append, List.length_replicate]
      omega
    have h2 := qps_set_append_last
      (l ++ List.replicate (fd - l.length) none) (some F1) none
    rw [hA] at h2
    rw [h2, List.append_assoc, ← List.replicate_succ']
    exact qps_dense_trim_append_replicate l hlast _

theorem qps_filterMap_length_ne_zero (l : List (Option QpsFile))
    (hlast : qps_dense_last_ok l = true) (h : l.length ≠ 0) :
    (l.filterMap id).length ≠ 0 := by
  rw [qps_dense_last_ok_iff] at hlast
  rcases hlast with hl | hl
  · exact absurd (by rw [hl]; rfl) h
  · rcases Option.isSome_iff_exists.1 hl with ⟨g, hg⟩
    have hil : l.length - 1 < l.length := by omega
    rw [List.getD_eq_getElem l none hil] at hg
    have hmem : some g ∈ l := by
      rw [← hg]
      exact List.getElem_mem hil
    have hgm := (qps_mem_filterMap_id l g).2 hmem
    intro hz
    rw [List.length_eq_zero] at hz
    rw [hz] at hgm
    cases hgm

/-! ## C8: attach-then-detach -/

/-- C8 counterexample.  The claim states that for *every* selection
and every detached record with a fresh descriptor, attach followed by
detach restores the selection exactly.  On the reachable ten-record
sparse selection, attaching an eleventh descriptor (fd 12) triggers
the one-way sparse-to-dense conversion; detaching it leaves the
selection dense, a different state from the sparse original. -/
theorem qps_attach_detach_not_roundtrip :
    qps_demo_ten.bind (fun S =>
      (qps_add_file S qps_detached_file 12 0).bind (fun S1 =>
        (qps_file_remove S1 12).map (fun S2 =>
          (decide (S2 = S), qps_files_has S.files 12, qps_detached_file.selection))))
      = some (false, false, false) := by
  decide

/-- C8 as amended: attach-then-detach returns the selection to a
state equal to its pre-attach state, provided the attach does not
trigger the sparse-to-dense conversion -- that is, for a selection
that is already dense or holds at most nine records.  (The conversion
is one-way, so a converted selection cannot return to its sparse
pre-attach state.) -/
theorem qps_attach_detach_roundtrip (S : QpsSelection) (F : QpsFile) (fd ck : ℕ)
    (hS : FilesValid S) (hFsel : F.selection = false) (hfd : fd < FD_SETSIZE)
    (hmem : qps_files_has S.files fd = false)
    (hrep : qps_fd_direct S = true ∨ S.fd_count ≤ 9) :
    (qps_add_file S F fd ck).bind (fun S1 => qps_file_remove S1 fd) = some S := by
  obtain ⟨hlast, hcount, hok⟩ := hS
  rcases hfs : S.files with l | l
  · -- sparse
    rw [hfs] at hlast hcount hok hmem
    have h9 : ¬ 9 < S.fd_count := by
      rcases hrep with hr | hr
      · simp [qps_fd_direct, hfs] at hr
      · omega
    have hpw : List.Pairwise (fun a b : QpsFile => a.fd < b.fd) l := by
      unfold qps_files_ok at hok
      exact of_decide_eq_true hok
    have hne : ∀ g ∈ l, g.fd ≠ fd := by
      simp [qps_files_has] at hmem
      exact hmem
    have hfind : List.find? (fun g => g.fd == fd) l = none := by
      rw [List.find?_eq_none]
      intro x hx
      simp [hne x hx]
    have ha : qps_add_file S F fd ck = some
        { S with
            files := QpsFiles.sparse (qps_sparse_insert l
              { F with selection := true, file_info := ck, fd := fd,
                       enabled_bits := 0 }),
            fd_count := S.fd_count + 1, fd_last := max S.fd_last fd } := by
      unfold qps_add_file
      rw [hfs]
      rw [if_neg (by simp [hFsel])]
      rw [if_pos hfd]
      dsimp only
      rw [hfind]
      rw [if_neg (by simp)]
      rw [if_neg h9]
    rw [ha, Option.some_bind]
    unfold qps_file_remove
    dsimp only
    rw [if_pos (le_max_right S.fd_last fd)]
    rw [qps_sparse_insert_find l _ fd rfl hne]
    dsimp only
    rw [if_pos rfl]
    rw [qps_sparse_insert_delete l _ fd rfl hne]
    rw [if_neg (Nat.succ_ne_zero S.fd_count)]
    have htally : (S.fd_count + 1 - 1 ≠ 0 ∧
          ((l.getLast?.map (fun g => g.fd)).isSome = true)) ∨
        (S.fd_count + 1 - 1 = 0 ∧ l.getLast?.map (fun g => g.fd) = none) := by
      by_cases hl : l = []
      · right
        subst hl
        have hc0 : S.fd_count = 0 := hcount
        simp [hc0]
      · left
        have hcl : S.fd_count = l.length := hcount
        constructor
        · have : l.length ≠ 0 := fun hh => hl (List.length_eq_zero.1 hh)
          omega
        · have hsome : l.getLast?.isSome = true := by
            rw [List.getLast?_isSome]
            simpa using hl
          obtain ⟨g, hg⟩ := Option.isSome_iff_exists.1 hsome
          rw [hg]
          rfl
    rw [if_pos htally]
    have h70 : qps_all_mbits &&& (0 : ℕ) = 0 := rfl
    rw [h70, qps_disable_loop_zero]
    have hfdl : ((l.getLast?.map (fun g => g.fd)).getD 0) = S.fd_last := by
      rw [hlast]
      unfold qps_files_max qps_files_fds qps_files_list
      exact (qps_sparse_max_getLast l hpw).symm
    rw [hfdl]
    simp only [Nat.add_sub_cancel]
    rw [← hfs]
  · -- dense
    rw [hfs] at hlast hcount hok hmem
    unfold qps_files_ok at hok
    rw [Bool.and_eq_true] at hok
    obtain ⟨hidx, hlastok⟩ := hok
    have hd : l.getD fd none = none := by
      simp only [qps_files_has] at hmem
      rcases hgd : l.getD fd none with _ | g
      · rfl
      · rw [hgd] at hmem
        cases hmem
    have ha : qps_add_file S F fd ck = some
        { S with
            files := QpsFiles.dense (qps_dense_set l fd
              { F with selection := true, file_info := ck, fd := fd,
                       enabled_bits := 0 }),
            fd_count := S.fd_count + 1, fd_last := max S.fd_last fd } := by
      unfold qps_add_file
      rw [hfs]
      rw [if_neg (by simp [hFsel])]
      rw [if_pos hfd]
      dsimp only
      rw [hd]
      rw [if_neg (by simp)]
    rw [ha, Option.some_bind]
    unfold qps_file_remove
    dsimp only
    rw [if_pos (le_max_right S.fd_last fd)]
    rw [qps_dense_set_getD, if_pos rfl]
    dsimp only
    rw [if_pos ⟨rfl, rfl⟩]
    rw [qps_dense_set_unset l fd _ hd hlastok]
    rw [if_neg (Nat.succ_ne_zero S.fd_count)]
    have htally : (S.fd_count + 1 - 1 ≠ 0 ∧
          ((if l.length = 0 then none else some (l.length - 1)) :
            Option ℕ).isSome = true) ∨
        (S.fd_count + 1 - 1 = 0 ∧
          (if l.length = 0 then none else some (l.length - 1) : Option ℕ) = none) := by
      by_cases hl : l.length = 0
      · right
        rw [List.length_eq_zero] at hl
        subst hl
        have hc0 : S.fd_count = 0 := hcount
        simp [hc0]
      · left
        have hcl : S.fd_count = (l.filterMap id).length := hcount
        constructor
        · have := qps_filterMap_length_ne_zero l hlastok hl
          omega
        · rw [if_neg hl]
          rfl
    rw [if_pos htally]
    have h70 : qps_all_mbits &&& (0 : ℕ) = 0 := rfl
    rw [h70, qps_disable_loop_zero]
    have hfdl : ((if l.length = 0 then none else some (l.length - 1) :
        Option ℕ).getD 0) = S.fd_last := by
      rw [hlast, qps_dense_files_max l hidx hlastok]
      by_cases hl : l.length = 0
      · rw [if_pos hl, if_pos hl]
        rfl
      · rw [if_neg hl, if_neg hl]
        rfl
    rw [hfdl]
    simp only [Nat.add_sub_cancel]
    rw [← hfs]

/-- Witness for the amended C8: attaching descriptor 2 to the
one-descriptor sparse selection and detaching it restores the
selection exactly. -/
theorem qps_attach_detach_roundtrip_witness :
    (qps_add_file qps_demo_idle qps_detached_file 2 0).bind
      (fun S1 => qps_file_remove S1 2) = some qps_demo_idle :=
  qps_attach_detach_roundtrip qps_demo_idle qps_detached_file 2 0
    (by decide) (by decide) (by decide) (by decide) (Or.inr (by decide))

/-! ## Frame lemmas for qps_disable_modes -/

theorem qps_disable_step_frame (S : QpsSelection) (fd : ℕ) (m : Fin 3)
    (S1 : QpsSelection) (h : qps_disable_step S fd m = some S1) :
    S1.files = S.files ∧ S1.fd_count = S.fd_count ∧ S1.fd_last = S.fd_last ∧
    S1.tried_fd_last = S.tried_fd_last ∧ S1.pend_mnum = S.pend_mnum ∧
    S1.pend_fd = S.pend_fd ∧ S1.tried_count = S.tried_count ∧
    S1.signum = S.signum ∧ S1.sigmask = S.sigmask := by
  unfold qps_disable_step at h
  split at h
  · cases h
  · split at h
    · split at h
      · injection h with h
        subst h
        exact ⟨rfl, rfl, rfl, rfl, rfl, rfl, rfl, rfl, rfl⟩
      · injection h with h
        subst h
        exact ⟨rfl, rfl, rfl, rfl, rfl, rfl, rfl, rfl, rfl⟩
    · cases h

theorem qps_disable_loop_frame (S : QpsSelection) (fd mb : ℕ)
    (S1 : QpsSelection) (h : qps_disable_loop S fd mb = some S1) :
    S1.files = S.files ∧ S1.fd_count = S.fd_count ∧ S1.fd_last = S.fd_last ∧
    S1.tried_fd_last = S.tried_fd_last ∧ S1.pend_mnum = S.pend_mnum ∧
    S1.pend_fd = S.pend_fd ∧ S1.tried_count = S.tried_count ∧
    S1.signum = S.signum ∧ S1.sigmask = S.sigmask := by
  unfold qps_disable_loop at h
  rcases hx1 : (if mb &&& 1 ≠ 0 then qps_disable_step S fd 0 else some S) with _ | Sa
  · rw [hx1] at h
    cases h
  · rw [hx1] at h
    rw [Option.some_bind] at h
    have hfa : Sa.files = S.files ∧ Sa.fd_count = S.fd_count ∧
        Sa.fd_last = S.fd_last ∧ Sa.tried_fd_last = S.tried_fd_last ∧
        Sa.pend_mnum = S.pend_mnum ∧ Sa.pend_fd = S.pend_fd ∧
        Sa.tried_count = S.tried_count ∧ Sa.signum = S.signum ∧
        Sa.sigmask = S.sigmask := by
      split at hx1
      · exact qps_disable_step_frame S fd 0 Sa hx1
      · injection hx1 with hx1
        subst hx1
        exact ⟨rfl, rfl, rfl, rfl, rfl, rfl, rfl, rfl, rfl⟩
    rcases hx2 : (if mb &&& 2 ≠ 0 then qps_disable_step Sa fd 1 else some Sa) with _ | Sb
    · rw [hx2] at h
      cases h
    · rw [hx2] at h
      rw [Option.some_bind] at h
      have hfb : Sb.files = Sa.files ∧ Sb.fd_count = Sa.fd_count ∧
          Sb.fd_last = Sa.fd_last ∧ Sb.tried_fd_last = Sa.tried_fd_last ∧
          Sb.pend_mnum = Sa.pend_mnum ∧ Sb.pend_fd = Sa.pend_fd ∧
          Sb.tried_count = Sa.tried_count ∧ Sb.signum = Sa.signum ∧
          Sb.sigmask = Sa.sigmask := by
        split at hx2
        · exact qps_disable_step_frame Sa fd 1 Sb hx2
        · injection hx2 with hx2
          subst hx2
          exact ⟨rfl, rfl, rfl, rfl, rfl, rfl, rfl, rfl, rfl⟩
      have hfc : S1.files = Sb.files ∧ S1.fd_count = Sb.fd_count ∧
          S1.fd_last = Sb.fd_last ∧ S1.tried_fd_last = Sb.tried_fd_last ∧
          S1.pend_mnum = Sb.pend_mnum ∧ S1.pend_fd = Sb.pend_fd ∧
          S1.tried_count = Sb.tried_count ∧ S1.signum = Sb.signum ∧
          S1.sigmask = Sb.sigmask := by
        split at h
        · exact qps_disable_step_frame Sb fd 2 S1 h
        · injection h with h
          subst h
          exact ⟨rfl, rfl, rfl, rfl, rfl, rfl, rfl, rfl, rfl⟩
      refine ⟨?_, ?_, ?_, ?_, ?_, ?_, ?_, ?_, ?_⟩ <;>
        simp only [hfc.1, hfc.2.1, hfc.2.2.1, hfc.2.2.2.1, hfc.2.2.2.2.1,
          hfc.2.2.2.2.2.1, hfc.2.2.2.2.2.2.1, hfc.2.2.2.2.2.2.2.1,
          hfc.2.2.2.2.2.2.2.2, hfb.1, hfb.2.1, hfb.2.2.1, hfb.2.2.2.1,
          hfb.2.2.2.2.1, hfb.2.2.2.2.2.1, hfb.2.2.2.2.2.2.1,
          hfb.2.2.2.2.2.2.2.1, hfb.2.2.2.2.2.2.2.2, hfa.1, hfa.2.1, hfa.2.2.1,
          hfa.2.2.2.1, hfa.2.2.2.2.1, hfa.2.2.2.2.2.1, hfa.2.2.2.2.2.2.1,
          hfa.2.2.2.2.2.2.2.1, hfa.2.2.2.2.2.2.2.2]

theorem qps_getLast?_mem (l : List QpsFile) (g : QpsFile)
    (h : l.getLast? = some g) : g ∈ l := by
  have hx : g ∈ l.getLast? := by rw [h]; exact rfl
  obtain ⟨hne, rfl⟩ := List.mem_getLast?_eq_getLast hx
  exact List.getLast_mem hne

/-! ## C9 support: attach and detach keep the files vector valid -/

theorem qps_add_file_files_valid (S : QpsSelection) (F : QpsFile) (fd ck : ℕ)
    (S1 : QpsSelection) (hS : FilesValid S)
    (h : qps_add_file S F fd ck = some S1) : FilesValid S1 := by
  obtain ⟨hlast, hcount, hok⟩ := hS
  unfold qps_add_file at h
  by_cases hsel : F.selection = true
  · rw [if_pos hsel] at h; cases h
  rw [if_neg hsel] at h
  by_cases hlt : fd < FD_SETSIZE
  swap
  · rw [if_neg hlt] at h; cases h
  rw [if_pos hlt] at h
  rcases hfs : S.files with l | l <;> rw [hfs] at h hlast hcount hok <;> dsimp only at h
  · -- sparse
    have hpw : List.Pairwise (fun a b : QpsFile => a.fd < b.fd) l := by
      unfold qps_files_ok at hok
      exact of_decide_eq_true hok
    by_cases hdup : (List.find? (fun g => g.fd == fd) l).isSome = true
    · rw [if_pos hdup] at h; cases h
    rw [if_neg hdup] at h
    injection h with h
    subst h
    have hfind : List.find? (fun g => g.fd == fd) l = none :=
      Option.not_isSome_iff_eq_none.1 hdup
    have hne : ∀ g ∈ l, g.fd ≠ fd := by
      rw [List.find?_eq_none] at hfind
      intro g hg
      have := hfind g hg
      simpa using this
    have hcl : S.fd_count = l.length := hcount
    by_cases h9 : 9 < S.fd_count
    · -- conversion to dense
      rw [if_pos h9]
      have hlnil : l ≠ [] := by
        intro he
        rw [he] at hcl
        simp at hcl
        omega
      have hfM : S.fd_last = (l.map (fun g => g.fd)).foldr max 0 := hlast
      have hslot : (qps_to_dense l).getD fd none = none := by
        rw [qps_to_dense_getD, hfind]
      have hlenT : (qps_to_dense l).length = (l.map (fun g => g.fd)).foldr max 0 + 1 := by
        rw [qps_to_dense_length, qps_map_fd_succ_foldr_max l hlnil]
      have hidxL : qps_dense_idx_ok
          (qps_dense_set (qps_to_dense l) fd
            { F with selection := true, file_info := ck, fd := fd,
                     enabled_bits := 0 }) = true := by
        rw [qps_dense_idx_ok_iff]
        intro j g hg
        rw [qps_dense_set_getD] at hg
        by_cases hj : j = fd
        · rw [if_pos hj] at hg
          injection hg with hg
          subst hg
          exact hj.symm
        · rw [if_neg hj] at hg
          rw [qps_to_dense_getD] at hg
          have := List.find?_some hg
          simpa using this
      have hlenL : (qps_dense_set (qps_to_dense l) fd
          { F with selection := true, file_info := ck, fd := fd,
                   enabled_bits := 0 }).length =
          max ((l.map (fun g => g.fd)).foldr max 0 + 1) (fd + 1) := by
        rw [qps_dense_set_length, hlenT]
      have hmem_max : ∃ g ∈ l, g.fd = (l.map (fun g => g.fd)).foldr max 0 := by
        rcases hgl : l.getLast? with _ | g
        · rw [List.getLast?_eq_none] at hgl
          exact absurd hgl hlnil
        · refine ⟨g, qps_getLast?_mem l g hgl, ?_⟩
          rw [qps_sparse_max_getLast l hpw, hgl]
          rfl
      have hlastL : qps_dense_last_ok
          (qps_dense_set (qps_to_dense l) fd
            { F with selection := true, file_info := ck, fd := fd,
                     enabled_bits := 0 }) = true := by
        rw [qps_dense_last_ok_iff]
        right
        rw [hlenL]
        set M := (l.map (fun g => g.fd)).foldr max 0 with hM
        by_cases hfM2 : M ≤ fd
        · have : max (M + 1) (fd + 1) - 1 = fd := by omega
          rw [this, qps_dense_set_getD, if_pos rfl]
          rfl
        · have : max (M + 1) (fd + 1) - 1 = M := by omega
          rw [this, qps_dense_set_getD, if_neg (by omega), qps_to_dense_getD]
          rw [Option.isSome_iff_exists]
          obtain ⟨g, hgmem, hgfd⟩ := hmem_max
          have : ∃ x, List.find? (fun g => g.fd == M) l = some x := by
            have hs : (List.find? (fun g => g.fd == M) l).isSome := by
              rw [List.find?_isSome]
              exact ⟨g, hgmem, by simp [hgfd]⟩
            exact Option.isSome_iff_exists.1 hs
          exact this
      refine ⟨?_, ?_, ?_⟩
      · show max S.fd_last fd = qps_files_max (QpsFiles.dense _)
        rw [qps_dense_files_max _ hidxL hlastL, hlenL]
        rw [if_neg (by omega)]
        omega
      · show S.fd_count + 1 = (qps_files_list (QpsFiles.dense _)).length
        simp only [qps_files_list]
        rw [qps_dense_set_filterMap_length _ _ _ hslot,
          qps_to_dense_filterMap_length l hpw]
        omega
      · show qps_files_ok (QpsFiles.dense _) = true
        unfold qps_files_ok
        rw [Bool.and_eq_true]
        exact ⟨hidxL, hlastL⟩
    · -- stays sparse
      rw [if_neg h9]
      have hfM : S.fd_last = (l.map (fun g => g.fd)).foldr max 0 := hlast
      refine ⟨?_, ?_, ?_⟩
      · show max S.fd_last fd = qps_files_max (QpsFiles.sparse _)
        simp only [qps_files_max, qps_files_fds, qps_files_list]
        rw [qps_sparse_insert_map_fd_max]
        dsimp only
        omega
      · show S.fd_count + 1 = (qps_files_list (QpsFiles.sparse _)).length
        simp only [qps_files_list]
        rw [qps_sparse_insert_length]
        omega
      · show qps_files_ok (QpsFiles.sparse _) = true
        unfold qps_files_ok
        apply decide_eq_true
        exact qps_sparse_insert_pairwise l _ hpw (by
          intro g hg
          exact hne g hg)
  · -- dense
    unfold qps_files_ok at hok
    rw [Bool.and_eq_true] at hok
    obtain ⟨hidx, hlastok⟩ := hok
    by_cases hdup : (l.getD fd none).isSome = true
    · rw [if_pos hdup] at h; cases h
    rw [if_neg hdup] at h
    injection h with h
    subst h
    have hd : l.getD fd none = none := Option.not_isSome_iff_eq_none.1 hdup
    have hcl : S.fd_count = (l.filterMap id).length := hcount
    have hidxL : qps_dense_idx_ok
        (qps_dense_set l fd
          { F with selection := true, file_info := ck, fd := fd,
                   enabled_bits := 0 }) = true := by
      rw [qps_dense_idx_ok_iff]
      intro j g hg
      rw [qps_dense_set_getD] at hg
      by_cases hj : j = fd
      · rw [if_pos hj] at hg
        injection hg with hg
        subst hg
        exact hj.symm
      · rw [if_neg hj] at hg
        exact (qps_dense_idx_ok_iff l).1 hidx j g hg
    have hlastL : qps_dense_last_ok
        (qps_dense_set l fd
          { F with selection := true, file_info := ck, fd := fd,
                   enabled_bits := 0 }) = true := by
      rw [qps_dense_last_ok_iff]
      right
      rw [qps_dense_set_length]
      by_cases hfl : l.length ≤ fd
      · have : max l.length (fd + 1) - 1 = fd := by omega
        rw [this, qps_dense_set_getD, if_pos rfl]
        rfl
      · have hmaxx : max l.length (fd + 1) - 1 = l.length - 1 := by omega
        have hne1 : l.length - 1 ≠ fd := by
          intro he
          rw [qps_dense_last_ok_iff] at hlastok
          rcases hlastok with h0 | h0
          · rw [h0] at hfl
            simp at hfl
          · rw [he, hd] at h0
            cases h0
        rw [hmaxx, qps_dense_set_getD, if_neg hne1]
        rw [qps_dense_last_ok_iff] at hlastok
        rcases hlastok with h0 | h0
        · rw [h0] at hfl
          simp at hfl
        · exact h0
    refine ⟨?_, ?_, ?_⟩
    · show max S.fd_last fd = qps_files_max (QpsFiles.dense _)
      rw [qps_dense_files_max _ hidxL hlastL, qps_dense_set_length]
      rw [if_neg (by omega)]
      have hfl2 : S.fd_last = qps_files_max (QpsFiles.dense l) := hlast
      rw [qps_dense_files_max l hidx hlastok] at hfl2
      by_cases hl0 : l.length = 0
      · rw [if_pos hl0] at hfl2
        omega
      · rw [if_neg hl0] at hfl2
        omega
    · show S.fd_count + 1 = (qps_files_list (QpsFiles.dense _)).length
      simp only [qps_files_list]
      rw [qps_dense_set_filterMap_length _ _ _ hd]
      omega
    · show qps_files_ok (QpsFiles.dense _) = true
      unfold qps_files_ok
      rw [Bool.and_eq_true]
      exact ⟨hidxL, hlastL⟩

theorem qps_file_remove_files_valid (S : QpsSelection) (fd : ℕ)
    (S1 : QpsSelection) (hS : FilesValid S)
    (h : qps_file_remove S fd = some S1) : FilesValid S1 := by
  obtain ⟨hlast, hcount, hok⟩ := hS
  unfold qps_file_remove at h
  by_cases hle : fd ≤ S.fd_last
  swap
  · rw [if_neg hle] at h; cases h
  rw [if_pos hle] at h
  rcases hfs : S.files with l | l <;> rw [hfs] at h hlast hcount hok <;> dsimp only at h
  · -- sparse
    have hpw : List.Pairwise (fun a b : QpsFile => a.fd < b.fd) l := by
      unfold qps_files_ok at hok
      exact of_decide_eq_true hok
    rcases hfind : List.find? (fun g => g.fd == fd) l with _ | F
    · rw [hfind] at h; cases h
    rw [hfind] at h
    dsimp only at h
    by_cases hFsel : F.selection = true
    swap
    · rw [if_neg hFsel] at h; cases h
    rw [if_pos hFsel] at h
    by_cases hc0 : S.fd_count = 0
    · rw [if_pos hc0] at h; cases h
    rw [if_neg hc0] at h
    split at h
    swap
    · cases h
    obtain ⟨hfiles, hcnt, hfdl, _⟩ := qps_disable_loop_frame _ _ _ _ h
    have hpwd : List.Pairwise (fun a b : QpsFile => a.fd < b.fd)
        (qps_sparse_delete l fd) :=
      List.Pairwise.sublist (qps_sparse_delete_sublist l fd) hpw
    refine ⟨?_, ?_, ?_⟩
    · rw [hfdl, hfiles]
      dsimp only
      show _ = qps_files_max (QpsFiles.sparse _)
      simp only [qps_files_max, qps_files_fds, qps_files_list]
      exact (qps_sparse_max_getLast _ hpwd).symm
    · rw [hcnt, hfiles]
      dsimp only
      simp only [qps_files_list]
      have hdl := qps_sparse_delete_length l fd F hfind
      have hcl : S.fd_count = l.length := hcount
      omega
    · rw [hfiles]
      dsimp only
      unfold qps_files_ok
      exact decide_eq_true hpwd
  · -- dense
    unfold qps_files_ok at hok
    rw [Bool.and_eq_true] at hok
    obtain ⟨hidx, hlastok⟩ := hok
    rcases hgd : l.getD fd none with _ | F
    · rw [hgd] at h; cases h
    rw [hgd] at h
    dsimp only at h
    by_cases hFf : F.fd = fd ∧ F.selection = true
    swap
    · rw [if_neg hFf] at h; cases h
    rw [if_pos hFf] at h
    by_cases hc0 : S.fd_count = 0
    · rw [if_pos hc0] at h; cases h
    rw [if_neg hc0] at h
    have hidx1 : qps_dense_idx_ok (qps_dense_trim (l.set fd none)) = true := by
      rw [qps_dense_idx_ok_iff]
      intro j g hg
      have hj := qps_getD_some_lt_length _ _ _ hg
      rw [qps_dense_trim_getD _ j hj] at hg
      rw [qps_set_getD] at hg
      split at hg
      · cases hg
      · exact (qps_dense_idx_ok_iff l).1 hidx j g hg
    have hlast1 : qps_dense_last_ok (qps_dense_trim (l.set fd none)) = true :=
      qps_dense_trim_last_ok _
    have hfm1 := qps_set_none_filterMap_length l fd F hgd
    have hcl : S.fd_count = (l.filterMap id).length := hcount
    by_cases hl0 : (qps_dense_trim (l.set fd none)).length = 0
    · rw [if_pos hl0] at h
      split at h
      swap
      · cases h
      obtain ⟨hfiles, hcnt, hfdl, _⟩ := qps_disable_loop_frame _ _ _ _ h
      refine ⟨?_, ?_, ?_⟩
      · rw [hfdl, hfiles]
        show (0 : ℕ) = qps_files_max (QpsFiles.dense _)
        rw [qps_dense_files_max _ hidx1 hlast1, if_pos hl0]
      · rw [hcnt, hfiles]
        show S.fd_count - 1 = (qps_files_list (QpsFiles.dense _)).length
        simp only [qps_files_list]
        rw [qps_dense_trim_filterMap]
        omega
      · rw [hfiles]
        show qps_files_ok (QpsFiles.dense _) = true
        unfold qps_files_ok
        rw [Bool.and_eq_true]
        exact ⟨hidx1, hlast1⟩
    · rw [if_neg hl0] at h
      split at h
      swap
      · cases h
      obtain ⟨hfiles, hcnt, hfdl, _⟩ := qps_disable_loop_frame _ _ _ _ h
      refine ⟨?_, ?_, ?_⟩
      · rw [hfdl, hfiles]
        show (qps_dense_trim (l.set fd none)).length - 1 =
          qps_files_max (QpsFiles.dense _)
        rw [qps_dense_files_max _ hidx1 hlast1, if_neg hl0]
      · rw [hcnt, hfiles]
        show S.fd_count - 1 = (qps_files_list (QpsFiles.dense _)).length
        simp only [qps_files_list]
        rw [qps_dense_trim_filterMap]
        omega
      · rw [hfiles]
        show qps_files_ok (QpsFiles.dense _) = true
        unfold qps_files_ok
        rw [Bool.and_eq_true]
        exact ⟨hidx1, hlast1⟩

theorem qps_selection_ream_files_valid (S S1 : QpsSelection)
    (oF : Option QpsFile) (hS : FilesValid S)
    (h : qps_selection_ream_keep S = some (S1, oF)) : FilesValid S1 := by
  unfold qps_selection_ream_keep at h
  rcases hp : qps_files_peek_last S.files with _ | F
  · rw [hp] at h
    by_cases hc : S.fd_count = 0
    · rw [if_pos hc] at h
      injection h with h
      rw [Prod.mk.injEq] at h
      obtain ⟨h1, _⟩ := h
      rw [← h1]
      decide
    · rw [if_neg hc] at h; cases h
  · rw [hp] at h
    dsimp only at h
    rcases hr : qps_file_remove S F.fd with _ | S2
    · rw [hr] at h; cases h
    · rw [hr] at h
      rw [Option.map_some'] at h
      injection h with h
      rw [Prod.mk.injEq] at h
      obtain ⟨h1, _⟩ := h
      rw [← h1]
      exact qps_file_remove_files_valid S F.fd S2 hS hr

/-! ## C9: membership operations maintain fd_last -/

/-- C9: every membership operation -- attach, detach, ream -- keeps
the files vector valid, and in particular preserves the invariant that
`fd_last` equals the largest descriptor currently present in `files`
(0 when the selection is empty), in both the sparse and the dense
representation; since validity is preserved, this holds across
detachments in arbitrary order. -/
theorem qps_membership_preserves_fd_last (S : QpsSelection) (hS : FilesValid S) :
    (∀ (F : QpsFile) (fd ck : ℕ) (S1 : QpsSelection),
        qps_add_file S F fd ck = some S1 →
          FilesValid S1 ∧ S1.fd_last = qps_files_max S1.files) ∧
    (∀ (fd : ℕ) (S1 : QpsSelection),
        qps_file_remove S fd = some S1 →
          FilesValid S1 ∧ S1.fd_last = qps_files_max S1.files) ∧
    (∀ (S1 : QpsSelection) (oF : Option QpsFile),
        qps_selection_ream_keep S = some (S1, oF) →
          FilesValid S1 ∧ S1.fd_last = qps_files_max S1.files) := by
  refine ⟨?_, ?_, ?_⟩
  · intro F fd ck S1 h
    have hv := qps_add_file_files_valid S F fd ck S1 hS h
    exact ⟨hv, hv.1⟩
  · intro fd S1 h
    have hv := qps_file_remove_files_valid S fd S1 hS h
    exact ⟨hv, hv.1⟩
  · intro S1 oF h
    have hv := qps_selection_ream_files_valid S S1 oF hS h
    exact ⟨hv, hv.1⟩

/-- Witness for C9 on concrete inputs: attach of descriptor 2,
detach of descriptor 5, and a ream step, each starting from the
one-descriptor selection, all preserve the fd_last invariant. -/
theorem qps_membership_preserves_fd_last_witness :
    FilesValid qps_demo_idle ∧
    (FilesValid qps_demo_attach_res ∧
      qps_demo_attach_res.fd_last = qps_files_max qps_demo_attach_res.files) ∧
    (FilesValid qps_demo_remove_res ∧
      qps_demo_remove_res.fd_last = qps_files_max qps_demo_remove_res.files) ∧
    (FilesValid qps_demo_ream_res.1 ∧
      qps_demo_ream_res.1.fd_last = qps_files_max qps_demo_ream_res.1.files) :=
  ⟨by decide,
   (qps_membership_preserves_fd_last qps_demo_idle (by decide)).1
     qps_detached_file 2 0 qps_demo_attach_res (by decide),
   (qps_membership_preserves_fd_last qps_demo_idle (by decide)).2.1
     5 qps_demo_remove_res (by decide),
   (qps_membership_preserves_fd_last qps_demo_idle (by decide)).2.2
     qps_demo_ream_res.1 qps_demo_ream_res.2 (by decide)⟩

/-! ## Dispatch machinery -/

theorem qps_sum3_update (f : Fin 3 → ℕ) (m : Fin 3) (v : ℕ) :
    (Finset.univ.sum fun i => if i = m then v else f i) + f m =
      Finset.univ.sum f + v := by
  fin_cases m <;> simp [Fin.sum_univ_three] <;> omega

theorem qps_sum3_eq_zero (f : Fin 3 → ℕ) (h : Finset.univ.sum f = 0) :
    ∀ m, f m = 0 := by
  rw [Fin.sum_univ_three] at h
  intro m
  fin_cases m
  · show f 0 = 0
    omega
  · show f 1 = 0
    omega
  · show f 2 = 0
    omega

theorem qps_sum3_pos (f : Fin 3 → Finset ℕ)
    (h : 0 < Finset.univ.sum fun m => (f m).card) : ∃ m, (f m).Nonempty := by
  by_contra hc
  push_neg at hc
  have hz : ∀ m, (f m).card = 0 := fun m =>
    Finset.card_eq_zero.2 (Finset.not_nonempty_iff_eq_empty.1 (hc m))
  rw [Fin.sum_univ_three, hz, hz, hz] at h
  omega

theorem qps_mode_advance_spec (mnum : ℕ) (tc : Fin 3 → ℕ) (hm : mnum < 3) :
    (∃ (m2 : Fin 3) (tc1 : Fin 3 → ℕ),
        qps_mode_advance mnum tc = some (m2, tc1) ∧
        mnum < (m2 : ℕ) ∧ tc m2 ≠ 0 ∧
        (∀ i : Fin 3, mnum ≤ (i : ℕ) → (i : ℕ) < (m2 : ℕ) → tc1 i = 0) ∧
        (∀ i : Fin 3, (i : ℕ) < mnum ∨ (m2 : ℕ) ≤ (i : ℕ) → tc1 i = tc i) ∧
        (∀ i : Fin 3, mnum < (i : ℕ) → (i : ℕ) < (m2 : ℕ) → tc i = 0)) ∨
    (qps_mode_advance mnum tc = none ∧
        ∀ i : Fin 3, mnum < (i : ℕ) → tc i = 0) := by
  interval_cases mnum
  · by_cases h1 : tc 1 = 0
    · by_cases h2 : tc 2 = 0
      · right
        constructor
        · simp [qps_mode_advance, h1, h2]
        · intro i hi
          fin_cases i
          · simp at hi
          · exact h1
          · exact h2
      · left
        refine ⟨2, fun i => if i = 1 then 0 else if i = 0 then 0 else tc i,
          ?_, by norm_num, h2, ?_, ?_, ?_⟩
        · simp [qps_mode_advance, h1, h2]
        · intro i _ hi2
          fin_cases i
          · simp
          · simp
          · simp at hi2
        · intro i hi
          fin_cases i
          · simp at hi
          · simp at hi
          · simp
        · intro i hi1 hi2
          fin_cases i
          · simp at hi1
          · exact h1
          · simp at hi2
    · left
      refine ⟨1, fun i => if i = 0 then 0 else tc i,
        ?_, by norm_num, h1, ?_, ?_, ?_⟩
      · simp [qps_mode_advance, h1]
      · intro i _ hi2
        fin_cases i
        · simp
        · simp at hi2
        · simp at hi2
      · intro i hi
        fin_cases i
        · simp at hi
        · simp
        · simp
      · intro i hi1 hi2
        fin_cases i
        · simp at hi1
        · simp at hi2
        · simp at hi2
  · by_cases h2 : tc 2 = 0
    · right
      constructor
      · simp [qps_mode_advance, h2]
      · intro i hi
        fin_cases i
        · simp at hi
        · simp at hi
        · exact h2
    · left
      refine ⟨2, fun i => if i = 1 then 0 else tc i,
        ?_, by norm_num, h2, ?_, ?_, ?_⟩
      · simp [qps_mode_advance, h2]
      · intro i hi1 hi2
        fin_cases i
        · simp at hi1
        · simp
        · simp at hi2
      · intro i hi
        fin_cases i
        · simp
        · simp at hi
        · simp
      · intro i hi1 hi2
        fin_cases i
        · simp at hi1
        · simp at hi1
        · simp at hi2
  · right
    constructor
    · simp [qps_mode_advance]
    · intro i hi
      fin_cases i
      · simp at hi
      · simp at hi
      · simp at hi

/-- The audited batch state implies the batch invariant as the claim
states it. -/
theorem qps_batch_valid_inv (S : QpsSelection) (h : BatchValid S) : BatchInv S := by
  obtain ⟨h0, h1⟩ := h
  refine ⟨h0, fun hp => ?_⟩
  obtain ⟨a1, a2, a3, a4, a5, a6, a7, a8, a9⟩ := h1 hp
  exact ⟨a6, a7, a8, a3, a9⟩

/-- `BatchValid` only looks at the batch fields; it transfers along
equal batch fields, with the enabled sets allowed to grow. -/
theorem qps_batch_valid_congr (S T : QpsSelection)
    (hr : T.results = S.results)
    (he : ∀ i : Fin 3, S.enabled i ⊆ T.enabled i)
    (ht : T.tried_count = S.tried_count) (hpc : T.pend_count = S.pend_count)
    (hpm : T.pend_mnum = S.pend_mnum) (hpf : T.pend_fd = S.pend_fd)
    (htl : T.tried_fd_last = S.tried_fd_last)
    (h : BatchValid S) : BatchValid T := by
  obtain ⟨h0, h1⟩ := h
  constructor
  · intro hp m
    rw [hpc] at hp
    rw [hr]
    exact h0 hp m
  · intro hp
    rw [hpc] at hp
    obtain ⟨a1, a2, a3, a4, a5, a6, a7, a8, a9⟩ := h1 hp
    refine ⟨by rw [hpm]; exact a1, by rw [hpf, htl]; exact a2, ?_, ?_, ?_, ?_, ?_, ?_, ?_⟩
    · intro m hm
      rw [hpm] at hm
      rw [ht]
      exact a3 m hm
    · unfold qps_tried_at
      rw [hpm, ht]
      unfold qps_tried_at at a4
      exact a4
    · intro m hm
      rw [ht] at hm
      rw [hr]
      exact a5 m hm
    · intro m
      rw [hr]
      exact fun x hx => he m (a6 m hx)
    · intro m x hx
      rw [hr] at hx
      rw [htl]
      exact a7 m x hx
    · unfold qps_results_at
      rw [hpm, hr, hpf]
      unfold qps_results_at at a8
      exact a8
    · rw [hr, hpc]
      exact a9

theorem qps_sum3_card_update (g : Fin 3 → Finset ℕ) (m : Fin 3) (s : Finset ℕ) :
    (Finset.univ.sum fun i => (if i = m then s else g i).card) + (g m).card =
      (Finset.univ.sum fun i => (g i).card) + s.card := by
  fin_cases m <;> simp [Fin.sum_univ_three] <;> omega

theorem qps_results_at_lt (S : QpsSelection) (m : ℕ) (h : m < 3) :
    qps_results_at S m = S.results ⟨m, h⟩ := dif_pos h

theorem qps_tried_at_lt (S : QpsSelection) (m : ℕ) (h : m < 3) :
    qps_tried_at S m = S.tried_count ⟨m, h⟩ := dif_pos h

/-- One `qps_disable_modes` iteration preserves the audited batch
state: either it only shrinks an enabled set whose descriptor holds no
pending event, or it also retracts the pending event, keeping the
tally. -/
theorem qps_disable_step_batch (S : QpsSelection) (fd : ℕ) (m : Fin 3)
    (S1 : QpsSelection) (h : qps_disable_step S fd m = some S1)
    (hB : BatchValid S) : BatchValid S1 := by
  obtain ⟨h0, h1⟩ := hB
  unfold qps_disable_step at h
  split at h
  · cases h
  · split at h
    · split at h
      · -- retract branch
        rename_i hmem hlive
        obtain ⟨hp, htm, hfd⟩ := hlive
        injection h with h
        subst h
        obtain ⟨a1, a2, a3, a4, a5, a6, a7, a8, a9⟩ := h1 hp
        have hsum : (Finset.univ.sum fun i =>
            ((if i = m then (S.results m).erase fd else S.results i)).card) + 1 =
            S.pend_count := by
          have hu := qps_sum3_card_update S.results m ((S.results m).erase fd)
          rw [Finset.card_erase_of_mem hfd] at hu
          have hcpos : 0 < (S.results m).card := Finset.card_pos.2 ⟨fd, hfd⟩
          omega
        constructor
        · intro hz m'
          dsimp only at hz ⊢
          have hz3 : (Finset.univ.sum fun i =>
              ((if i = m then (S.results m).erase fd else S.results i)).card) = 0 := by
            omega
          have := qps_sum3_eq_zero _ hz3 m'
          exact Finset.card_eq_zero.1 this
        · intro hz
          dsimp only at hz ⊢
          refine ⟨a1, a2, a3, a4, ?_, ?_, ?_, ?_, ?_⟩
          · intro m' hm'
            by_cases hmm : m' = m
            · rw [hmm] at hm'
              exact absurd hm' htm
            · rw [if_neg hmm]
              exact a5 m' hm'
          · intro m'
            by_cases hmm : m' = m
            · rw [if_pos hmm, if_pos hmm]
              intro x hx
              exact Finset.mem_erase.2
                ⟨Finset.ne_of_mem_erase hx, a6 m (Finset.mem_of_mem_erase hx)⟩
            · rw [if_neg hmm, if_neg hmm]
              exact a6 m'
          · intro m' x hx
            by_cases hmm : m' = m
            · rw [if_pos hmm] at hx
              exact a7 m x (Finset.mem_of_mem_erase hx)
            · rw [if_neg hmm] at hx
              exact a7 m' x hx
          · dsimp only
            rw [qps_results_at_lt _ _ a1] at a8 ⊢
            dsimp only
            by_cases hpm : (⟨S.pend_mnum, a1⟩ : Fin 3) = m
            · rw [if_pos hpm]
              intro x hx
              have hx1 : x ∈ S.results ⟨S.pend_mnum, a1⟩ := by
                rw [hpm]
                exact Finset.mem_of_mem_erase hx
              exact a8 x hx1
            · rw [if_neg hpm]
              exact a8
          · dsimp only
            omega
      · -- no retract: only the enabled set shrinks
        rename_i hmem hnot
        injection h with h
        subst h
        constructor
        · intro hz m'
          exact h0 hz m'
        · intro hz
          obtain ⟨a1, a2, a3, a4, a5, a6, a7, a8, a9⟩ := h1 hz
          have hfdnot : fd ∉ S.results m := by
            intro hf
            apply hnot
            refine ⟨hz, ?_, hf⟩
            intro ht0
            rw [a5 m ht0] at hf
            exact absurd hf (Finset.not_mem_empty fd)
          refine ⟨a1, a2, a3, a4, a5, ?_, a7, a8, a9⟩
          intro m'
          dsimp only
          by_cases hmm : m' = m
          · rw [if_pos hmm]
            intro x hx
            rw [hmm] at hx
            refine Finset.mem_erase.2 ⟨?_, a6 m hx⟩
            intro he
            rw [he] at hx
            exact hfdnot hx
          · rw [if_neg hmm]
            exact a6 m'
    · cases h

theorem qps_disable_loop_batch (S : QpsSelection) (fd mb : ℕ) (S1 : QpsSelection)
    (h : qps_disable_loop S fd mb = some S1) (hB : BatchValid S) : BatchValid S1 := by
  unfold qps_disable_loop at h
  rcases hx1 : (if mb &&& 1 ≠ 0 then qps_disable_step S fd 0 else some S) with _ | Sa
  · rw [hx1] at h
    cases h
  · rw [hx1, Option.some_bind] at h
    have hBa : BatchValid Sa := by
      by_cases hb : mb &&& 1 ≠ 0
      · rw [if_pos hb] at hx1
        exact qps_disable_step_batch S fd 0 Sa hx1 hB
      · rw [if_neg hb] at hx1
        injection hx1 with hx1
        exact hx1 ▸ hB
    rcases hx2 : (if mb &&& 2 ≠ 0 then qps_disable_step Sa fd 1 else some Sa) with _ | Sb
    · rw [hx2] at h
      cases h
    · rw [hx2, Option.some_bind] at h
      have hBb : BatchValid Sb := by
        by_cases hb : mb &&& 2 ≠ 0
        · rw [if_pos hb] at hx2
          exact qps_disable_step_batch Sa fd 1 Sb hx2 hBa
        · rw [if_neg hb] at hx2
          injection hx2 with hx2
          exact hx2 ▸ hBa
      by_cases hb : mb &&& 4 ≠ 0
      · rw [if_pos hb] at h
        exact qps_disable_step_batch Sb fd 2 S1 h hBb
      · rw [if_neg hb] at h
        injection h with h
        exact h ▸ hBb

theorem qps_disable_modes_batch (S : QpsSelection) (fd mbits : ℕ) (S1 : QpsSelection)
    (h : qps_disable_modes S fd mbits = some S1) (hB : BatchValid S) : BatchValid S1 := by
  unfold qps_disable_modes at h
  split at h
  · cases h
  · rcases hlk : qps_file_lookup S fd with _ | qf <;> rw [hlk] at h
    · cases h
    · dsimp only at h
      rcases hl : qps_disable_loop S fd (mbits &&& qf.enabled_bits) with _ | Sm <;>
        rw [hl] at h
      · cases h
      · rw [Option.map_some'] at h
        injection h with h
        subst h
        exact qps_batch_valid_congr Sm _ rfl (fun i => Finset.Subset.refl _)
          rfl rfl rfl rfl rfl (qps_disable_loop_batch S fd _ Sm hl hB)

theorem qps_add_file_batch (S : QpsSelection) (F : QpsFile) (fd fi : ℕ)
    (S1 : QpsSelection) (h : qps_add_file S F fd fi = some S1)
    (hB : BatchValid S) : BatchValid S1 := by
  unfold qps_add_file at h
  split at h
  · cases h
  · split at h
    · rcases hfs : S.files with l | l <;> rw [hfs] at h <;> dsimp only at h
      · by_cases hfound : (l.find? (fun g => g.fd == fd)).isSome
        · rw [if_pos hfound] at h
          cases h
        · rw [if_neg hfound] at h
          injection h with h
          subst h
          exact qps_batch_valid_congr S _ rfl (fun i => Finset.Subset.refl _)
            rfl rfl rfl rfl rfl hB
      · by_cases hfound : (l.getD fd none).isSome
        · rw [if_pos hfound] at h
          cases h
        · rw [if_neg hfound] at h
          injection h with h
          subst h
          exact qps_batch_valid_congr S _ rfl (fun i => Finset.Subset.refl _)
            rfl rfl rfl rfl rfl hB
    · cases h

theorem qps_set_action_batch (S : QpsSelection) (fd mnum : ℕ) (a : Option ℕ)
    (S1 : QpsSelection) (h : qps_set_action S fd mnum a = some S1)
    (hB : BatchValid S) : BatchValid S1 := by
  unfold qps_set_action at h
  split at h
  · split at h
    · rcases hlk : qps_file_lookup S fd with _ | qf <;> rw [hlk] at h
      · cases h
      · dsimp only at h
        split at h
        · cases h
        · injection h with h
          subst h
          exact qps_batch_valid_congr S _ rfl (fun i => Finset.Subset.refl _)
            rfl rfl rfl rfl rfl hB
    · cases h
  · cases h

theorem qps_set_signal_batch (S : QpsSelection) (sig : ℕ) (mask : Finset ℕ)
    (S1 : QpsSelection) (h : qps_set_signal S sig mask = some S1)
    (hB : BatchValid S) : BatchValid S1 := by
  unfold qps_set_signal at h
  split at h
  · split at h
    · injection h with h
      subst h
      exact qps_batch_valid_congr S _ rfl (fun i => Finset.Subset.refl _)
        rfl rfl rfl rfl rfl hB
    · cases h
  · injection h with h
    subst h
    exact qps_batch_valid_congr S _ rfl (fun i => Finset.Subset.refl _)
      rfl rfl rfl rfl rfl hB

theorem qps_enable_mode_batch (S : QpsSelection) (fd mnum : ℕ) (a : Option ℕ)
    (S1 : QpsSelection) (h : qps_enable_mode S fd mnum a = some S1)
    (hB : BatchValid S) : BatchValid S1 := by
  unfold qps_enable_mode at h
  rcases hlk : qps_file_lookup S fd with _ | qf <;> rw [hlk] at h
  · cases h
  · dsimp only at h
    split at h
    · split at h
      · split at h
        · cases h
        · split at h
          · split at h
            · injection h with h
              subst h
              exact qps_batch_valid_congr S _ rfl (fun i => Finset.Subset.refl _)
                rfl rfl rfl rfl rfl hB
            · cases h
          · split at h
            · cases h
            · injection h with h
              subst h
              refine qps_batch_valid_congr S _ rfl ?_ rfl rfl rfl rfl rfl hB
              intro i
              dsimp only
              by_cases hmm : i = (⟨mnum, by assumption⟩ : Fin 3)
              · rw [if_pos hmm, hmm]
                exact Finset.subset_insert _ _
              · rw [if_neg hmm]
      · cases h
    · cases h

theorem qps_file_remove_batch (S : QpsSelection) (fd : ℕ) (S1 : QpsSelection)
    (h : qps_file_remove S fd = some S1) (hB : BatchValid S) : BatchValid S1 := by
  unfold qps_file_remove at h
  split at h
  · rcases hfs : S.files with l | l <;> rw [hfs] at h <;> dsimp only at h
    · rcases hfind : l.find? (fun g => g.fd == fd) with _ | F <;>
        rw [hfind] at h <;> dsimp only at h
      · cases h
      · by_cases hsel : F.selection = true
        · rw [if_pos hsel] at h
          by_cases hc0 : S.fd_count = 0
          · rw [if_pos hc0] at h
            cases h
          · rw [if_neg hc0] at h
            split at h
            · exact qps_disable_loop_batch _ fd _ S1 h
                (qps_batch_valid_congr S _ rfl (fun i => Finset.Subset.refl _)
                  rfl rfl rfl rfl rfl hB)
            · cases h
        · rw [if_neg hsel] at h
          cases h
    · rcases hget : l.getD fd none with _ | F <;> rw [hget] at h <;> dsimp only at h
      · cases h
      · by_cases hsel : F.fd = fd ∧ F.selection = true
        · rw [if_pos hsel] at h
          by_cases hc0 : S.fd_count = 0
          · rw [if_pos hc0] at h
            cases h
          · rw [if_neg hc0] at h
            by_cases hl0 : (qps_dense_trim (l.set fd none)).length = 0 <;>
              [rw [if_pos hl0] at h; rw [if_neg hl0] at h] <;> split at h
            · exact qps_disable_loop_batch _ fd _ S1 h
                (qps_batch_valid_congr S _ rfl (fun i => Finset.Subset.refl _)
                  rfl rfl rfl rfl rfl hB)
            · cases h
            · exact qps_disable_loop_batch _ fd _ S1 h
                (qps_batch_valid_congr S _ rfl (fun i => Finset.Subset.refl _)
                  rfl rfl rfl rfl rfl hB)
            · cases h
        · rw [if_neg hsel] at h
          cases h
  · cases h

theorem qps_selection_init_batch : BatchValid qps_selection_init_new := by
  decide

theorem qps_ream_keep_batch (S : QpsSelection) (res : QpsSelection × Option QpsFile)
    (h : qps_selection_ream_keep S = some res) (hB : BatchValid S) :
    BatchValid res.1 := by
  unfold qps_selection_ream_keep at h
  rcases hp : qps_files_peek_last S.files with _ | F <;> rw [hp] at h <;>
    dsimp only at h
  · split at h
    · injection h with h
      rw [← h]
      exact qps_selection_init_batch
    · cases h
  · rcases hr : qps_file_remove S F.fd with _ | Sr <;> rw [hr] at h
    · cases h
    · rw [Option.map_some'] at h
      injection h with h
      rw [← h]
      exact qps_file_remove_batch S F.fd Sr hr hB

/-- The `pend_mnum` chosen by `qps_pselect` is the first mode with a
non-zero enabled count, so every earlier count is zero. -/
theorem qps_pselect_pmnum_zero (ec : Fin 3 → ℕ) (m : Fin 3)
    (hm : (m : ℕ) <
      if ec 0 ≠ 0 then 0 else if ec 1 ≠ 0 then 1 else if ec 2 ≠ 0 then (2 : ℕ) else 3) :
    ec m = 0 := by
  by_cases e0 : ec 0 ≠ 0
  · rw [if_pos e0] at hm
    exact absurd hm (by omega)
  · push_neg at e0
    rw [if_neg (not_not.2 e0)] at hm
    by_cases e1 : ec 1 ≠ 0
    · rw [if_pos e1] at hm
      have hm0 : m = 0 := by
        apply Fin.ext
        omega
      rw [hm0]
      exact e0
    · push_neg at e1
      rw [if_neg (not_not.2 e1)] at hm
      by_cases e2 : ec 2 ≠ 0
      · rw [if_pos e2] at hm
        fin_cases m
        · exact e0
        · exact e1
        · simp at hm
      · push_neg at e2
        rw [if_neg (not_not.2 e2)] at hm
        fin_cases m
        · exact e0
        · exact e1
        · exact e2

/-- When the mode chosen by `qps_pselect` is in range, its tried count
(the snapshotted enabled count) is non-zero. -/
theorem qps_pselect_pmnum_tried (T : QpsSelection)
    (hdef : T.pend_mnum = if T.tried_count 0 ≠ 0 then 0 else if T.tried_count 1 ≠ 0
      then 1 else if T.tried_count 2 ≠ 0 then (2 : ℕ) else 3)
    (hlt : T.pend_mnum < 3) : qps_tried_at T T.pend_mnum ≠ 0 := by
  rw [qps_tried_at_lt T _ hlt]
  by_cases e0 : T.tried_count 0 ≠ 0
  · have hv : T.pend_mnum = 0 := by rw [hdef, if_pos e0]
    have hf : (⟨T.pend_mnum, hlt⟩ : Fin 3) = 0 := by
      apply Fin.ext
      simp [hv]
    rw [hf]
    exact e0
  · push_neg at e0
    by_cases e1 : T.tried_count 1 ≠ 0
    · have hv : T.pend_mnum = 1 := by rw [hdef, if_neg (not_not.2 e0), if_pos e1]
      have hf : (⟨T.pend_mnum, hlt⟩ : Fin 3) = 1 := by
        apply Fin.ext
        simp [hv]
      rw [hf]
      exact e1
    · push_neg at e1
      by_cases e2 : T.tried_count 2 ≠ 0
      · have hv : T.pend_mnum = 2 := by
          rw [hdef, if_neg (not_not.2 e0), if_neg (not_not.2 e1), if_pos e2]
        have hf : (⟨T.pend_mnum, hlt⟩ : Fin 3) = 2 := by
          apply Fin.ext
          simp [hv]
        rw [hf]
        exact e2
      · push_neg at e2
        have hv : T.pend_mnum = 3 := by
          rw [hdef, if_neg (not_not.2 e0), if_neg (not_not.2 e1), if_neg (not_not.2 e2)]
        rw [hv] at hlt
        exact absurd hlt (by omega)

/-- A freshly installed batch (as built by `qps_pselect` from the
enabled sets and the kernel's answer) satisfies the audited batch
state. -/
theorem qps_fresh_batch_valid (S : QpsSelection) (res : Fin 3 → Finset ℕ) (n pm : ℕ)
    (hen : ∀ m : Fin 3, ∀ x ∈ S.enabled m, x ≤ S.fd_last)
    (hpm3 : pm < 3)
    (hzero : ∀ m : Fin 3, (m : ℕ) < pm → S.enabled_count m = 0)
    (htried : S.enabled_count ⟨pm, hpm3⟩ ≠ 0)
    (hsub : ∀ m, res m ⊆ S.enabled m)
    (hres0 : ∀ m, S.enabled_count m = 0 → res m = ∅)
    (hsum : Finset.univ.sum (fun m => (res m).card) = n)
    (hn : n ≠ 0) :
    BatchValid { S with
        results := res,
        tried_count := S.enabled_count,
        pend_mnum := pm,
        tried_fd_last := S.fd_last,
        pend_count := n,
        pend_fd := 0 } := by
  constructor
  · intro hz
    exact absurd hz hn
  · intro _
    refine ⟨hpm3, Nat.zero_le _, hzero, ?_, hres0, hsub, ?_, ?_, hsum⟩
    · rw [qps_tried_at_lt _ _ hpm3]
      exact htried
    · intro m x hx
      exact hen m x (hsub m hx)
    · intro x _
      exact Nat.zero_le x

set_option maxHeartbeats 1000000 in
/-- `qps_pselect` preserves the audited batch state: every `some`
outcome either installs a fresh batch (kernel returned events) or
leaves the selection with `pend_count = 0` and all results empty. -/
theorem qps_pselect_batch (S : QpsSelection) (poll : PollOutcome)
    (S1 : QpsSelection) (r : ℤ)
    (h : qps_pselect S poll = some (S1, r)) (hI : SelInv S) : BatchValid S1 := by
  obtain ⟨⟨h0, h1⟩, hen⟩ := hI
  have hR0f : (if S.pend_count ≠ 0 then (fun _ => (∅ : Finset ℕ)) else S.results) =
      (fun _ => (∅ : Finset ℕ)) := by
    split
    · rfl
    · rename_i hc
      push_neg at hc
      funext m
      exact h0 hc m
  unfold qps_pselect at h
  cases poll with
  | err =>
    dsimp only at h
    cases h
  | intr =>
    dsimp only at h
    injection h with h
    have hS : _ = S1 := congrArg Prod.fst h
    rw [← hS]
    exact ⟨fun _ m => rfl, fun hz => absurd rfl hz⟩
  | ev rv =>
    dsimp only at h
    rw [hR0f] at h
    simp only [Finset.filter_empty, Finset.union_empty] at h
    have hsubL : ∀ m : Fin 3,
        (if S.enabled_count m ≠ 0 then
          (if S.enabled_count m ≠ 0 then
            Finset.filter (fun x => x < qps_byte_copy_bound S.fd_last) (S.enabled m)
          else ∅) ∩ rv m
        else if S.enabled_count m ≠ 0 then
          Finset.filter (fun x => x < qps_byte_copy_bound S.fd_last) (S.enabled m)
        else ∅) ⊆ S.enabled m := by
      intro m
      by_cases hec : S.enabled_count m ≠ 0
      · rw [if_pos hec, if_pos hec]
        exact fun x hx => Finset.filter_subset _ _ (Finset.mem_of_mem_inter_left hx)
      · rw [if_neg hec, if_neg hec]
        exact Finset.empty_subset _
    have hres0L : ∀ m : Fin 3, S.enabled_count m = 0 →
        (if S.enabled_count m ≠ 0 then
          (if S.enabled_count m ≠ 0 then
            Finset.filter (fun x => x < qps_byte_copy_bound S.fd_last) (S.enabled m)
          else ∅) ∩ rv m
        else if S.enabled_count m ≠ 0 then
          Finset.filter (fun x => x < qps_byte_copy_bound S.fd_last) (S.enabled m)
        else ∅) = ∅ := by
      intro m hm0
      have hne : ¬ (S.enabled_count m ≠ 0) := not_not.2 hm0
      rw [if_neg hne, if_neg hne]
    have hsumL : (Finset.univ.sum fun m =>
        ((if S.enabled_count m ≠ 0 then
          (if S.enabled_count m ≠ 0 then
            Finset.filter (fun x => x < qps_byte_copy_bound S.fd_last) (S.enabled m)
          else ∅) ∩ rv m
        else if S.enabled_count m ≠ 0 then
          Finset.filter (fun x => x < qps_byte_copy_bound S.fd_last) (S.enabled m)
        else ∅)).card) =
        Finset.univ.sum fun x =>
          if S.enabled_count x ≠ 0 then
            ((if S.enabled_count x ≠ 0 then
              Finset.filter (fun y => y < qps_byte_copy_bound S.fd_last) (S.enabled x)
            else ∅) ∩ rv x).card
          else 0 := by
      apply Finset.sum_congr rfl
      intro m _
      by_cases hec : S.enabled_count m ≠ 0
      · rw [if_pos hec, if_pos hec, if_pos hec]
      · rw [if_neg hec, if_neg hec, if_neg hec]
        exact Finset.card_empty
    by_cases e0 : S.enabled_count 0 ≠ 0
    · rw [if_pos e0] at h
      rw [if_pos (by omega : (0:ℕ) < 3)] at h
      split at h
      · rename_i hn0
        injection h with h
        have hS : _ = S1 := congrArg Prod.fst h
        rw [← hS]
        exact qps_fresh_batch_valid S _ _ 0 hen (by omega)
          (fun m hm => absurd hm (by omega)) e0 hsubL hres0L hsumL (by omega)
      · injection h with h
        have hS : _ = S1 := congrArg Prod.fst h
        rw [← hS]
        exact ⟨fun _ m => rfl, fun hz => absurd rfl hz⟩
    · push_neg at e0
      rw [if_neg (not_not.2 e0)] at h
      by_cases e1 : S.enabled_count 1 ≠ 0
      · rw [if_pos e1] at h
        rw [if_pos (by omega : (1:ℕ) < 3)] at h
        split at h
        · rename_i hn0
          injection h with h
          have hS : _ = S1 := congrArg Prod.fst h
          rw [← hS]
          refine qps_fresh_batch_valid S _ _ 1 hen (by omega)
            ?_ e1 hsubL hres0L hsumL (by omega)
          intro m hm
          have hm0 : m = 0 := by
            apply Fin.ext
            omega
          rw [hm0]
          exact e0
        · injection h with h
          have hS : _ = S1 := congrArg Prod.fst h
          rw [← hS]
          exact ⟨fun _ m => rfl, fun hz => absurd rfl hz⟩
      · push_neg at e1
        rw [if_neg (not_not.2 e1)] at h
        by_cases e2 : S.enabled_count 2 ≠ 0
        · rw [if_pos e2] at h
          rw [if_pos (by omega : (2:ℕ) < 3)] at h
          split at h
          · rename_i hn0
            injection h with h
            have hS : _ = S1 := congrArg Prod.fst h
            rw [← hS]
            refine qps_fresh_batch_valid S _ _ 2 hen (by omega)
              ?_ e2 hsubL hres0L hsumL (by omega)
            intro m hm
            fin_cases m
            · exact e0
            · exact e1
            · simp at hm
          · injection h with h
            have hS : _ = S1 := congrArg Prod.fst h
            rw [← hS]
            exact ⟨fun _ m => rfl, fun hz => absurd rfl hz⟩
        · push_neg at e2
          rw [if_neg (not_not.2 e2)] at h
          rw [if_neg (by omega : ¬ (3:ℕ) < 3)] at h
          split at h
          · cases h
          · injection h with h
            have hS : _ = S1 := congrArg Prod.fst h
            rw [← hS]
            exact ⟨fun _ m => rfl, fun hz => absurd rfl hz⟩

set_option maxHeartbeats 1000000 in
/-- The outer scan loop of `qps_dispatch_next`: starting from the
cursor, it yields the least pending descriptor of the lowest non-empty
mode at or above the current one, clears exactly that bit, zeroes the
tried counts of the modes it skipped, and leaves every other field
unchanged. -/
theorem qps_dispatch_find_spec (fuel mnum fd : ℕ) (S : QpsSelection)
    (hm : mnum < 3) (hfuel : 3 - mnum ≤ fuel)
    (hpm : S.pend_mnum = mnum)
    (hlowtc : ∀ i : Fin 3, (i : ℕ) < mnum → S.tried_count i = 0)
    (htm : qps_tried_at S mnum ≠ 0)
    (htc0 : ∀ i : Fin 3, S.tried_count i = 0 → S.results i = ∅)
    (hlow : ∀ i : Fin 3, (i : ℕ) < mnum → S.results i = ∅)
    (hstart : ∀ x ∈ qps_results_at S mnum, fd ≤ x)
    (hbound : ∀ i : Fin 3, ∀ x ∈ S.results i, x ≤ S.tried_fd_last)
    (hne : ∃ i : Fin 3, mnum ≤ (i : ℕ) ∧ (S.results i).Nonempty) :
    ∃ (m : Fin 3) (f : ℕ) (S1 : QpsSelection),
      qps_dispatch_find fuel S mnum fd = some (m, f, S1) ∧
      mnum ≤ (m : ℕ) ∧
      f ∈ S.results m ∧
      (∀ x ∈ S.results m, f ≤ x) ∧
      (∀ i : Fin 3, mnum ≤ (i : ℕ) → (i : ℕ) < (m : ℕ) → S.results i = ∅) ∧
      S1.results m = (S.results m).erase f ∧
      (∀ i : Fin 3, i ≠ m → S1.results i = S.results i) ∧
      S1.pend_mnum = (m : ℕ) ∧
      (∀ i : Fin 3, (i : ℕ) < (m : ℕ) → S1.tried_count i = 0) ∧
      (∀ i : Fin 3, (m : ℕ) ≤ (i : ℕ) → S1.tried_count i = S.tried_count i) ∧
      S1.files = S.files ∧ S1.fd_count = S.fd_count ∧ S1.fd_last = S.fd_last ∧
      S1.enabled = S.enabled ∧ S1.enabled_count = S.enabled_count ∧
      S1.tried_fd_last = S.tried_fd_last ∧ S1.pend_count = S.pend_count ∧
      S1.pend_fd = S.pend_fd ∧ S1.signum = S.signum ∧ S1.sigmask = S.sigmask := by
  induction fuel generalizing mnum fd S with
  | zero => exact absurd hfuel (by omega)
  | succ fuel ih =>
    simp only [qps_dispatch_find]
    rw [dif_pos hm]
    by_cases hcase : (S.results ⟨mnum, hm⟩).Nonempty
    · -- the scan of the current mode finds its least bit
      have hins : ∀ x ∈ S.results ⟨mnum, hm⟩, fd ≤ x ∧ x ≤ S.tried_fd_last := by
        intro x hx
        refine ⟨?_, hbound _ x hx⟩
        apply hstart
        rw [qps_results_at_lt S mnum hm]
        exact hx
      have hscan := qps_next_fd_pending_min _ fd S.tried_fd_last hins hcase
      rw [hscan]
      dsimp only
      rw [if_pos (by exact_mod_cast Nat.zero_le _ : (0:ℤ) ≤ _)]
      refine ⟨⟨mnum, hm⟩, ((S.results ⟨mnum, hm⟩).min' hcase),
        { S with results := fun i => if i = ⟨mnum, hm⟩ then
            (S.results ⟨mnum, hm⟩).erase ((S.results ⟨mnum, hm⟩).min' hcase)
          else S.results i },
        ?_, Nat.le_refl mnum, Finset.min'_mem _ _,
        (fun x hx => Finset.min'_le _ x hx), ?_, ?_, ?_, hpm, ?_,
        (fun i _ => rfl), rfl, rfl, rfl, rfl, rfl, rfl, rfl, rfl, rfl, rfl⟩
      · rw [show ((((S.results ⟨mnum, hm⟩).min' hcase : ℕ) : ℤ)).toNat =
          (S.results ⟨mnum, hm⟩).min' hcase from Int.toNat_natCast _]
      · intro i h1 h2
        exact absurd (lt_of_le_of_lt h1 h2) (lt_irrefl mnum)
      · simp
      · intro i hi
        dsimp only
        rw [if_neg hi]
      · intro i hi
        exact hlowtc i hi
    · -- current mode exhausted: advance
      have hemp : S.results ⟨mnum, hm⟩ = ∅ := Finset.not_nonempty_iff_eq_empty.1 hcase
      rw [hemp, qps_next_fd_pending_none]
      dsimp only
      rw [if_neg (by omega : ¬ (0:ℤ) ≤ -1)]
      rcases qps_mode_advance_spec mnum S.tried_count hm with
        ⟨m2, tc1, heq, hlt2, htc2, hzr, hfr, hskip⟩ | ⟨heq, hallz⟩
      · rw [heq]
        dsimp only
        have hlow' : ∀ i : Fin 3, (i : ℕ) < (m2 : ℕ) → S.results i = ∅ := by
          intro i hi
          rcases lt_trichotomy (i : ℕ) mnum with hlt | heqi | hgt
          · exact hlow i hlt
          · have hieq : i = ⟨mnum, hm⟩ := Fin.ext heqi
            rw [hieq]
            exact hemp
          · exact htc0 i (hskip i hgt hi)
        have hlowtc' : ∀ i : Fin 3, (i : ℕ) < (m2 : ℕ) → tc1 i = 0 := by
          intro i hi
          by_cases hcmp : (i : ℕ) < mnum
          · rw [hfr i (Or.inl hcmp)]
            exact hlowtc i hcmp
          · exact hzr i (by omega) hi
        have htm' : qps_tried_at
            { S with tried_count := tc1, pend_mnum := (m2 : ℕ) } (m2 : ℕ) ≠ 0 := by
          rw [qps_tried_at_lt _ _ m2.isLt]
          have hf2 : (⟨(m2 : ℕ), m2.isLt⟩ : Fin 3) = m2 := Fin.ext rfl
          show tc1 _ ≠ 0
          rw [hf2, hfr m2 (Or.inr (Nat.le_refl _))]
          exact htc2
        have htc0' : ∀ i : Fin 3, tc1 i = 0 → S.results i = ∅ := by
          intro i hz
          rcases lt_trichotomy (i : ℕ) mnum with hlt | heqi | hgt
          · exact hlow i hlt
          · have hieq : i = ⟨mnum, hm⟩ := Fin.ext heqi
            rw [hieq]
            exact hemp
          · by_cases hge2 : (m2 : ℕ) ≤ (i : ℕ)
            · rw [hfr i (Or.inr hge2)] at hz
              exact htc0 i hz
            · exact htc0 i (hskip i hgt (by omega))
        have hne' : ∃ i : Fin 3, (m2 : ℕ) ≤ (i : ℕ) ∧ (S.results i).Nonempty := by
          obtain ⟨i, hige, hinon⟩ := hne
          refine ⟨i, ?_, hinon⟩
          by_contra hc
          push_neg at hc
          rw [hlow' i hc] at hinon
          exact absurd hinon (by simp)
        obtain ⟨m, f, S1, hfind, hge, hmem, hmin, hskipped, hres, hresne, hpm1,
          htlow, htfr, hfi, hfc, hfl, hena, henc, htfl, hpc, hpf, hsg, hsk⟩ :=
          ih (m2 : ℕ) 0 { S with tried_count := tc1, pend_mnum := (m2 : ℕ) }
            m2.isLt (by omega) rfl hlowtc' htm' htc0' hlow'
            (fun x _ => Nat.zero_le x) hbound hne'
        refine ⟨m, f, S1, hfind, by omega, hmem, hmin, ?_, hres, hresne, hpm1,
          htlow, ?_, hfi, hfc, hfl, hena, henc, htfl, hpc, hpf, hsg, hsk⟩
        · intro i h1 h2
          by_cases hc : (i : ℕ) < (m2 : ℕ)
          · exact hlow' i hc
          · exact hskipped i (by omega) h2
        · intro i hi
          rw [htfr i hi]
          exact hfr i (Or.inr (by omega))
      · exfalso
        obtain ⟨i, hige, hinon⟩ := hne
        rcases eq_or_lt_of_le hige with heqi | hgt
        · have hieq : i = ⟨mnum, hm⟩ := Fin.ext heqi.symm
          rw [hieq, hemp] at hinon
          exact absurd hinon (by simp)
        · rw [htc0 i (hallz i hgt)] at hinon
          exact absurd hinon (by simp)

/-- `qps_file_lookup` reads only the files vector. -/
theorem qps_file_lookup_files (S T : QpsSelection) (fd : ℕ) (h : T.files = S.files) :
    qps_file_lookup T fd = qps_file_lookup S fd := by
  unfold qps_file_lookup
  rw [h]

/-- Dispatchability of an event depends only on the files vector. -/
theorem qps_dispatchable_files (S T : QpsSelection) (h : T.files = S.files)
    (m : Fin 3) (x : ℕ) :
    qps_dispatchable T m x = qps_dispatchable S m x := by
  unfold qps_dispatchable
  rw [qps_file_lookup_files S T x h]

set_option maxHeartbeats 1000000 in
/-- One `qps_dispatch_next` step on a selection with a live batch:
there is a unique (mode, fd) candidate -- the least pending event in
lexicographic order -- and when it is dispatchable the call consumes
it, decrements `pend_count`, preserves the audited batch state, and
every event still pending afterwards is strictly greater. -/
theorem qps_dispatch_next_spec (S : QpsSelection) (hB : BatchValid S)
    (hp : S.pend_count ≠ 0) :
    ∃ (m : Fin 3) (f : ℕ) (S2 : QpsSelection),
      (qps_dispatchable S m f = true →
        qps_dispatch_next S = some (S2, S.pend_count - 1, some (m, f))) ∧
      (∀ out, qps_dispatch_next S = some out →
        out = (S2, S.pend_count - 1, some (m, f))) ∧
      f ∈ S.results m ∧
      BatchValid S2 ∧
      S2.pend_count = S.pend_count - 1 ∧
      S2.files = S.files ∧
      (∀ i : Fin 3, S2.results i ⊆ S.results i) ∧
      (∀ i : Fin 3, ∀ x ∈ S2.results i, qps_pair_lt (m, f) (i, x)) := by
  obtain ⟨h0, h1⟩ := hB
  obtain ⟨a1, a2, a3, a4, a5, a6, a7, a8, a9⟩ := h1 hp
  have hne : ∃ i : Fin 3, S.pend_mnum ≤ (i : ℕ) ∧ (S.results i).Nonempty := by
    have hpos : 0 < Finset.univ.sum (fun m => (S.results m).card) := by
      rw [a9]
      omega
    obtain ⟨i, hi⟩ := qps_sum3_pos _ hpos
    refine ⟨i, ?_, hi⟩
    by_contra hc
    push_neg at hc
    rw [a5 i (a3 i hc)] at hi
    exact absurd hi (by simp)
  obtain ⟨m, f, S1, hfind, hge, hmem, hmin, hskipped, hres, hresne, hpm1,
    htlow, htfr, hfi, hfc, hfl, hena, henc, htfl, hpc, hpf, hsg, hsk⟩ :=
    qps_dispatch_find_spec 3 S.pend_mnum S.pend_fd S a1 (by omega) rfl a3 a4 a5
      (fun i hi => a5 i (a3 i hi)) a8 a7 hne
  have a4' : ¬ S.tried_count ⟨S.pend_mnum, a1⟩ = 0 := by
    rw [← qps_tried_at_lt S _ a1]
    exact a4
  have htm1 : S.tried_count m ≠ 0 := by
    intro ht0
    rw [a5 m ht0] at hmem
    exact absurd hmem (Finset.not_mem_empty f)
  have hlkc : qps_file_lookup
      { S1 with pend_count := S1.pend_count - 1, pend_fd := f } f =
      qps_file_lookup S f := qps_file_lookup_files S _ f hfi
  have hrun : qps_dispatch_next S =
      match qps_file_lookup S f with
      | none => none
      | some qf =>
        if qf.enabled_bits ≠ 0 ∧ (qf.actions m).isSome then
          some ({ S1 with pend_count := S1.pend_count - 1, pend_fd := f },
            S1.pend_count - 1, some (m, f))
        else none := by
    unfold qps_dispatch_next
    rw [if_neg hp, dif_pos a1, if_neg a4', hfind]
    dsimp only
    rw [hlkc]
  have hfun : S1.results =
      fun i => if i = m then (S.results m).erase f else S.results i := by
    funext i
    by_cases him : i = m
    · rw [him, if_pos rfl]
      exact hres
    · rw [if_neg him]
      exact hresne i him
  refine ⟨m, f, { S1 with pend_count := S1.pend_count - 1, pend_fd := f },
    ?_, ?_, hmem, ?_, ?_, hfi, ?_, ?_⟩
  · -- dispatchable implies the some outcome
    intro hd
    unfold qps_dispatchable at hd
    rcases hlk : qps_file_lookup S f with _ | qf <;> rw [hlk] at hd hrun <;>
      dsimp only at hd hrun
    · cases hd
    · rw [Bool.and_eq_true] at hd
      have hcond : qf.enabled_bits ≠ 0 ∧ ((qf.actions m).isSome : Prop) :=
        ⟨by simpa using hd.1, hd.2⟩
      rw [if_pos hcond] at hrun
      rw [hrun, hpc]
  · -- the some outcome is unique
    intro out hout
    rw [hrun] at hout
    rcases hlk : qps_file_lookup S f with _ | qf <;> rw [hlk] at hout <;>
      dsimp only at hout
    · cases hout
    · split at hout
      · injection hout with hout
        rw [← hout, hpc]
      · cases hout
  · -- BatchValid of the consumed state
    constructor
    · intro hz m'
      dsimp only at hz ⊢
      have hone : S.pend_count = 1 := by omega
      have hsum1 : Finset.univ.sum (fun j => (S.results j).card) = 1 := by
        rw [a9, hone]
      have hcm : 0 < (S.results m).card := Finset.card_pos.2 ⟨f, hmem⟩
      have h1' : ∀ i : Fin 3, i ≠ m → (S.results i).card = 0 := by
        intro i hi
        by_contra hc
        have h2 : 1 ≤ (S.results i).card := Nat.pos_of_ne_zero hc
        have h3 : (Finset.sum {i, m} fun j => (S.results j).card) ≤
            Finset.univ.sum (fun j => (S.results j).card) :=
          Finset.sum_le_sum_of_subset (Finset.subset_univ ({i, m} : Finset (Fin 3)))
        rw [Finset.sum_pair hi] at h3
        omega
      by_cases him : m' = m
      · have hcm1 : (S.results m).card = 1 := by
          have hs := Finset.sum_eq_single m
            (fun b _ hb => h1' b hb)
            (fun hm => absurd (Finset.mem_univ m) hm)
          rw [hs] at hsum1
          exact hsum1
        obtain ⟨a, ha⟩ := Finset.card_eq_one.1 hcm1
        have haf : a = f := by
          rw [ha] at hmem
          exact (Finset.mem_singleton.1 hmem).symm
        rw [him, hres, ha, haf, Finset.erase_singleton]
      · rw [hresne m' him]
        exact Finset.card_eq_zero.1 (h1' m' him)
    · intro hz
      dsimp only at hz ⊢
      have hm3 : S1.pend_mnum < 3 := by
        rw [hpm1]
        exact m.isLt
      have hfm : (⟨S1.pend_mnum, hm3⟩ : Fin 3) = m := Fin.ext hpm1
      refine ⟨hm3, ?_, ?_, ?_, ?_, ?_, ?_, ?_, ?_⟩
      · rw [htfl]
        exact a7 m f hmem
      · intro i hi
        rw [hpm1] at hi
        exact htlow i hi
      · rw [qps_tried_at_lt _ _ hm3]
        show S1.tried_count _ ≠ 0
        rw [hfm, htfr m (Nat.le_refl _)]
        exact htm1
      · intro i hti
        by_cases hc : (i : ℕ) < (m : ℕ)
        · have hne_im : i ≠ m := by
            intro he
            rw [he] at hc
            exact lt_irrefl _ hc
          rcases lt_or_ge (i : ℕ) S.pend_mnum with h2 | h2
          · rw [hresne i hne_im]
            exact a5 i (a3 i h2)
          · rw [hresne i hne_im]
            exact hskipped i h2 hc
        · have hge' : (m : ℕ) ≤ (i : ℕ) := Nat.le_of_not_lt hc
          by_cases him : i = m
          · exfalso
            rw [him, htfr m (Nat.le_refl _)] at hti
            exact htm1 hti
          · rw [hresne i him]
            rw [htfr i hge'] at hti
            exact a5 i hti
      · intro i
        show S1.results i ⊆ S1.enabled i
        rw [hena]
        by_cases him : i = m
        · rw [him, hres]
          exact fun x hx => a6 m (Finset.mem_of_mem_erase hx)
        · rw [hresne i him]
          exact a6 i
      · intro i x hx
        show x ≤ S1.tried_fd_last
        rw [htfl]
        by_cases him : i = m
        · rw [him, hres] at hx
          exact a7 m x (Finset.mem_of_mem_erase hx)
        · rw [hresne i him] at hx
          exact a7 i x hx
      · rw [hpm1, qps_results_at_lt _ _ m.isLt]
        show ∀ x ∈ S1.results _, f ≤ x
        have hfm2 : (⟨(m : ℕ), m.isLt⟩ : Fin 3) = m := Fin.ext rfl
        rw [hfm2, hres]
        exact fun x hx => hmin x (Finset.mem_of_mem_erase hx)
      · show Finset.univ.sum (fun i => (S1.results i).card) = S1.pend_count - 1
        rw [hfun, hpc]
        dsimp only
        have hu := qps_sum3_card_update S.results m ((S.results m).erase f)
        rw [Finset.card_erase_of_mem hmem] at hu
        have hcm : 0 < (S.results m).card := Finset.card_pos.2 ⟨f, hmem⟩
        omega
  · show S1.pend_count - 1 = S.pend_count - 1
    rw [hpc]
  · intro i
    show S1.results i ⊆ S.results i
    by_cases him : i = m
    · rw [him, hres]
      exact Finset.erase_subset _ _
    · rw [hresne i him]
  · intro i x hx
    dsimp only at hx
    rcases lt_trichotomy (i : ℕ) (m : ℕ) with hlt | heqv | hgt
    · have hne_im : i ≠ m := by
        intro he
        rw [he] at hlt
        exact lt_irrefl _ hlt
      rw [hresne i hne_im] at hx
      rcases lt_or_ge (i : ℕ) S.pend_mnum with h2 | h2
      · rw [a5 i (a3 i h2)] at hx
        exact absurd hx (Finset.not_mem_empty x)
      · rw [hskipped i h2 hlt] at hx
        exact absurd hx (Finset.not_mem_empty x)
    · have him : i = m := Fin.ext heqv
      rw [him, hres] at hx
      refine Or.inr ⟨him.symm, ?_⟩
      have h2 := hmin x (Finset.mem_of_mem_erase hx)
      have h3 := Finset.ne_of_mem_erase hx
      omega
    · exact Or.inl hgt

/-- Draining a batch with repeated `qps_dispatch_next` (callbacks
performing no mutations): all `pend_count` events are delivered in
strictly ascending lexicographic order, after which the batch is
empty. -/
theorem qps_dispatch_events_spec (fuel : ℕ) (S : QpsSelection)
    (hD : DispatchReady S) (hf : S.pend_count ≤ fuel) :
    ∃ (l : List (Fin 3 × ℕ)) (S1 : QpsSelection),
      qps_dispatch_events fuel S = some (l, S1) ∧
      l.length = S.pend_count ∧
      S1.pend_count = 0 ∧
      (∀ m : Fin 3, S1.results m = ∅) ∧
      List.Pairwise qps_pair_lt l ∧
      (∀ p ∈ l, p.2 ∈ S.results p.1) := by
  induction fuel generalizing S with
  | zero =>
    have hz : S.pend_count = 0 := by omega
    exact ⟨[], S, rfl, by simp [hz], hz, hD.1.1 hz, List.Pairwise.nil, by simp⟩
  | succ fuel ih =>
    by_cases hz : S.pend_count = 0
    · refine ⟨[], S, ?_, by simp [hz], hz, hD.1.1 hz, List.Pairwise.nil, by simp⟩
      simp only [qps_dispatch_events]
      rw [if_pos hz]
    · obtain ⟨hB, hdis⟩ := hD
      obtain ⟨m, f, S2, hsome, huniq, hmem, hB2, hpc2, hfi2, hmono, hord⟩ :=
        qps_dispatch_next_spec S hB hz
      have hnext := hsome (hdis m f hmem)
      have hD2 : DispatchReady S2 := by
        refine ⟨hB2, ?_⟩
        intro i x hx
        rw [qps_dispatchable_files S S2 hfi2]
        exact hdis i x (hmono i hx)
      have hf2 : S2.pend_count ≤ fuel := by omega
      obtain ⟨l, S3, hev, hlen, hpc3, hres3, hpw, hmem3⟩ := ih S2 hD2 hf2
      refine ⟨(m, f) :: l, S3, ?_, ?_, hpc3, hres3, ?_, ?_⟩
      · simp only [qps_dispatch_events]
        rw [if_neg hz, hnext]
        dsimp only
        rw [hev]
        rfl
      · simp only [List.length_cons, hlen, hpc2]
        omega
      · refine List.Pairwise.cons ?_ hpw
        intro p hp
        have h2 := hord p.1 p.2 (hmem3 p hp)
        simpa using h2
      · intro p hp
        rcases List.mem_cons.1 hp with hp | hp
        · rw [hp]
          exact hmem
        · exact hmono p.1 (hmem3 p hp)

/-! ## C1: dispatch ordering -/

/-- C1.  For every selection with a pending batch whose events all
resolve to attached files with live actions (the state after a wait
returned n > 0), dispatching with `qps_dispatch_next` until
`pend_count` reaches zero -- callbacks performing no mutations --
delivers the (mode, fd) pairs in strictly ascending lexicographic
order: mode priority error < read < write, descriptors ascending
within each mode; each delivered pair was pending in its mode. -/
theorem qps_dispatch_ordering (S : QpsSelection) (hD : DispatchReady S) :
    ∃ (l : List (Fin 3 × ℕ)) (S1 : QpsSelection),
      qps_dispatch_events S.pend_count S = some (l, S1) ∧
      List.Pairwise qps_pair_lt l ∧
      (∀ p ∈ l, p.2 ∈ S.results p.1) := by
  obtain ⟨l, S1, hev, _, _, _, hpw, hmem⟩ :=
    qps_dispatch_events_spec S.pend_count S hD (Nat.le_refl _)
  exact ⟨l, S1, hev, hpw, hmem⟩

/-- C1 witness: on the concrete two-event read batch (descriptors 3
and 7) the dispatch loop succeeds and its event list is strictly
ascending. -/
theorem qps_dispatch_ordering_witness :
    DispatchReady qps_demo_batch ∧
    (∃ (l : List (Fin 3 × ℕ)) (S1 : QpsSelection),
      qps_dispatch_events qps_demo_batch.pend_count qps_demo_batch = some (l, S1) ∧
      List.Pairwise qps_pair_lt l ∧
      (∀ p ∈ l, p.2 ∈ qps_demo_batch.results p.1)) :=
  ⟨by decide, qps_dispatch_ordering qps_demo_batch (by decide)⟩

/-! ## C7: a batch of n events drains in exactly n dispatch calls -/

/-- C7.  For every selection whose most recent wait returned n > 0
(modelled: a dispatch-ready batch with `pend_count = n`), repeated
`qps_dispatch_next` with non-mutating callbacks succeeds, delivers
exactly n events, and leaves `pend_count = 0` with all three result
sets empty. -/
theorem qps_dispatch_drains (S : QpsSelection) (hD : DispatchReady S) :
    ∃ (l : List (Fin 3 × ℕ)) (S1 : QpsSelection),
      qps_dispatch_events S.pend_count S = some (l, S1) ∧
      l.length = S.pend_count ∧
      S1.pend_count = 0 ∧
      (∀ m : Fin 3, S1.results m = ∅) := by
  obtain ⟨l, S1, hev, hlen, hpc, hres, _, _⟩ :=
    qps_dispatch_events_spec S.pend_count S hD (Nat.le_refl _)
  exact ⟨l, S1, hev, hlen, hpc, hres⟩

/-- C7 witness: the concrete two-event batch drains in two calls. -/
theorem qps_dispatch_drains_witness :
    DispatchReady qps_demo_batch ∧
    (∃ (l : List (Fin 3 × ℕ)) (S1 : QpsSelection),
      qps_dispatch_events qps_demo_batch.pend_count qps_demo_batch = some (l, S1) ∧
      l.length = qps_demo_batch.pend_count ∧
      S1.pend_count = 0 ∧
      (∀ m : Fin 3, S1.results m = ∅)) :=
  ⟨by decide, qps_dispatch_drains qps_demo_batch (by decide)⟩

/-! ## C2: every exposed operation preserves the batch invariant -/

/-- C2.  On a selection in the audited state (`SelInv`, what
`qps_selection_validate` checks between operations), the batch
invariant of the claim holds, and every exposed operation -- create,
attach, detach, ream, enable_mode, set_action, disable_modes,
set_signal, the wait, and one dispatch step -- yields a state
satisfying it again whenever it completes without aborting. -/
theorem qps_batch_invariant_preserved (S : QpsSelection) (h : SelInv S) :
    BatchInv S ∧
    BatchInv qps_selection_init_new ∧
    (∀ F fd fi S1, qps_add_file S F fd fi = some S1 → BatchInv S1) ∧
    (∀ fd S1, qps_file_remove S fd = some S1 → BatchInv S1) ∧
    (∀ r, qps_selection_ream_keep S = some r → BatchInv r.1) ∧
    (∀ fd mnum a S1, qps_enable_mode S fd mnum a = some S1 → BatchInv S1) ∧
    (∀ fd mnum a S1, qps_set_action S fd mnum a = some S1 → BatchInv S1) ∧
    (∀ fd mbits S1, qps_disable_modes S fd mbits = some S1 → BatchInv S1) ∧
    (∀ sig mask S1, qps_set_signal S sig mask = some S1 → BatchInv S1) ∧
    (∀ poll S1 r, qps_pselect S poll = some (S1, r) → BatchInv S1) ∧
    (∀ out, qps_dispatch_next S = some out → BatchInv out.1) := by
  obtain ⟨hB, hen⟩ := h
  refine ⟨qps_batch_valid_inv S hB,
    qps_batch_valid_inv _ qps_selection_init_batch,
    fun F fd fi S1 hop =>
      qps_batch_valid_inv _ (qps_add_file_batch S F fd fi S1 hop hB),
    fun fd S1 hop =>
      qps_batch_valid_inv _ (qps_file_remove_batch S fd S1 hop hB),
    fun r hop =>
      qps_batch_valid_inv _ (qps_ream_keep_batch S r hop hB),
    fun fd mnum a S1 hop =>
      qps_batch_valid_inv _ (qps_enable_mode_batch S fd mnum a S1 hop hB),
    fun fd mnum a S1 hop =>
      qps_batch_valid_inv _ (qps_set_action_batch S fd mnum a S1 hop hB),
    fun fd mbits S1 hop =>
      qps_batch_valid_inv _ (qps_disable_modes_batch S fd mbits S1 hop hB),
    fun sig mask S1 hop =>
      qps_batch_valid_inv _ (qps_set_signal_batch S sig mask S1 hop hB),
    fun poll S1 r hop =>
      qps_batch_valid_inv _ (qps_pselect_batch S poll S1 r hop ⟨hB, hen⟩),
    ?_⟩
  intro out hout
  by_cases hz : S.pend_count = 0
  · unfold qps_dispatch_next at hout
    rw [if_pos hz] at hout
    injection hout with hout
    rw [← hout]
    exact qps_batch_valid_inv S hB
  · obtain ⟨m, f, S2, _, huniq, _, hB2, _⟩ := qps_dispatch_next_spec S hB hz
    rw [huniq out hout]
    exact qps_batch_valid_inv _ hB2

/-- C2 witness: the audited two-event batch state satisfies the batch
invariant (first conjunct, instantiated concretely). -/
theorem qps_batch_invariant_preserved_witness :
    SelInv qps_demo_batch ∧ BatchInv qps_demo_batch :=
  ⟨by decide, (qps_batch_invariant_preserved qps_demo_batch (by decide)).1⟩
